import Mathlib

/-!
Verification of the STOMP frame parser in jonathanlloyd/skewserver
(src/parsing/parsing.go, with the chunked mock transport of
src/parsing/parsing_test.go and the wire grammar of the specification).

The parser code is generic over a byte source offering peek and
single-byte read (the Go ReadPeeker interface, instantiated with a
bufio.Reader).  We embed it the same way: every parser function is
parameterised by a ReadPeeker record over an abstract stream state.
Two instances are provided:

* listRP: the idealised source whose state is the list of remaining
  bytes (peek never fails while enough bytes remain, reading pops the
  head) - this is the canonical semantics used by most claims;
* bufRP sched: a faithful model of bufio.Reader wrapping the test
  file's mockTCPStream, whose reads deliver the bytes in chunks of
  sizes sched 0, sched 1, ... (the test cycles through 1,8,32,12,5,2).

Loops of the Go code are embedded with explicit fuel; each call site
passes one more than the number of bytes still in the stream, which is
always sufficient because every loop iteration consumes at least one
byte of input.
-/

set_option maxRecDepth 4000

namespace Skew

abbrev Byte := Nat

/-- Byte sequence of an ASCII string literal, as Go obtains with a
conversion of a string to a byte slice. -/
def strBytes (s : String) : List Byte := s.toList.map Char.toNat

/-! ## Command table (parsing.go lines 40-76, 297-300)

CommandType is an integer enumeration built with the iota+1 pattern,
so SEND = 1, SUBSCRIBE = 2, ..., ERROR = 15, and the Go zero value 0
names no command.  The commands map is indexed by the verb string;
indexing a Go map with an absent key yields the zero value. -/

def verbStrings : List (List Byte) :=
  [strBytes "SEND", strBytes "SUBSCRIBE", strBytes "UNSUBSCRIBE", strBytes "BEGIN",
   strBytes "COMMIT", strBytes "ABORT", strBytes "ACK", strBytes "NACK",
   strBytes "DISCONNECT", strBytes "CONNECT", strBytes "STOMP", strBytes "CONNECTED",
   strBytes "MESSAGE", strBytes "RECEIPT", strBytes "ERROR"]

/-- The commands map of parsing.go: verb string to CommandType value,
with 0 (the Go zero value) for every absent key. -/
def commandsLookup (l : List Byte) : Nat :=
  if l = strBytes "SEND" then 1
  else if l = strBytes "SUBSCRIBE" then 2
  else if l = strBytes "UNSUBSCRIBE" then 3
  else if l = strBytes "BEGIN" then 4
  else if l = strBytes "COMMIT" then 5
  else if l = strBytes "ABORT" then 6
  else if l = strBytes "ACK" then 7
  else if l = strBytes "NACK" then 8
  else if l = strBytes "DISCONNECT" then 9
  else if l = strBytes "CONNECT" then 10
  else if l = strBytes "STOMP" then 11
  else if l = strBytes "CONNECTED" then 12
  else if l = strBytes "MESSAGE" then 13
  else if l = strBytes "RECEIPT" then 14
  else if l = strBytes "ERROR" then 15
  else 0

/-- isCommand of parsing.go: membership of the literal in the commands map. -/
def isCommand (l : List Byte) : Bool := verbStrings.contains l

/-! ## Tokens, frames, outcomes -/

inductive TokenType where
  | NULL_TOKEN
  | COMMAND
  | HEADER_KEY
  | HEADER_VALUE
  | BODY
  | DELIMITER
  | INVALID_TOKEN
deriving DecidableEq, Repr

inductive TerminatorType where
  | unset
  | EOL
  | HEADER_SEPARATOR
deriving DecidableEq, Repr

/-- Go map from header name to header value, modelled as an
association list whose update replaces the value of an existing key in
place and otherwise appends. -/
abbrev Headers := List (List Byte × List Byte)

/-- Assignment into the headers map (headers[k] = v in Go). -/
def setHeader (hs : Headers) (k v : List Byte) : Headers :=
  match hs with
  | [] => [(k, v)]
  | (k', v') :: rest => if k' = k then (k, v) :: rest else (k', v') :: setHeader rest k v

/-- Map lookup; keys are unique in every map built with setHeader. -/
def lookupHeader (k : List Byte) (hs : Headers) : Option (List Byte) :=
  match hs with
  | [] => Option.none
  | (k', v') :: rest => if k' = k then some v' else lookupHeader k rest

structure Frame where
  Command : Nat
  Headers : Headers
  Body : List Byte
deriving DecidableEq, Repr

/-- Result of one NextFrame call: the Go pair of a Frame and an error
that is nil, a ParseError carrying a message, or io.EOF. -/
inductive Outcome where
  | frame (f : Frame)
  | parseError (msg : String)
  | eof
deriving DecidableEq, Repr

/-! ## The byte source abstraction (the Go ReadPeeker interface)

The parser only ever peeks 1 or 2 bytes.  peek returns the requested
bytes exactly when that many are available (bufio.Reader refills from
the transport transparently and reports an error otherwise); it may
advance internal buffering but never the cursor.  readByte consumes one
byte.  size reports how many bytes remain in total; it is used only to
compute sufficient fuel for the loops of the embedding. -/

structure ReadPeeker (σ : Type) where
  peek1 : σ → Option Byte × σ
  peek2 : σ → Option (Byte × Byte) × σ
  readByte : σ → Option Byte × σ
  size : σ → Nat

/-- StompParser of parsing.go: the stream plus the two flags. -/
structure StompParser (σ : Type) where
  stream : σ
  reachedEOF : Bool
  frameJustEnded : Bool
deriving DecidableEq, Repr

section Generic

variable {σ : Type} (S : ReadPeeker σ)

/-- Consume one byte, discarding the result (a bare ReadByte call in Go). -/
def consume1 (p : StompParser σ) : StompParser σ :=
  { p with stream := (S.readByte p.stream).2 }

/-- scanEOL of parsing.go (lines 219-237). -/
def scanEOL (p : StompParser σ) : Bool × StompParser σ :=
  match S.peek2 p.stream with
  | (Option.none, s') => (false, { p with stream := s', reachedEOF := true })
  | (some (b0, b1), s') =>
    let p' := { p with stream := s' }
    if b0 = 10 then (true, consume1 S p')
    else if b0 = 13 ∧ b1 = 10 then (true, consume1 S (consume1 S p'))
    else (false, p')

/-- scanHeaderSeparator of parsing.go (lines 239-253); peeks only, never consumes. -/
def scanHeaderSeparator (p : StompParser σ) : Bool × StompParser σ :=
  match S.peek1 p.stream with
  | (Option.none, s') => (false, { p with stream := s', reachedEOF := true })
  | (some b, s') => ((b == 58 : Bool), { p with stream := s' })

/-- skipEOLs of parsing.go (lines 211-217), with fuel. -/
def skipEOLs : Nat → StompParser σ → StompParser σ
  | 0, p => p
  | n + 1, p =>
    let (found, p') := scanEOL S p
    if found then skipEOLs n p' else p'

/-- scanTillDelimiter of parsing.go (lines 255-273), with fuel. -/
def scanTillDelimiter : Nat → StompParser σ → List Byte × StompParser σ
  | 0, p => ([], p)
  | n + 1, p =>
    match S.peek1 p.stream with
    | (Option.none, s') => ([], { p with stream := s', reachedEOF := true })
    | (some b, s') =>
      let p' := { p with stream := s' }
      if b = 0 then ([], p')
      else
        match S.readByte p'.stream with
        | (Option.none, s2) => ([], { p' with stream := s2, reachedEOF := true })
        | (some c, s2) =>
          let (lit, pf) := scanTillDelimiter n { p' with stream := s2 }
          (c :: lit, pf)

/-- scanTillTerminator of parsing.go (lines 275-295), with fuel.  The
Go loop runs while the terminator is unset and reachedEOF is false;
each iteration tries scanEOL, then scanHeaderSeparator, then consumes
one byte into the literal. -/
def scanTillTerminator : Nat → StompParser σ → List Byte × TerminatorType × StompParser σ
  | 0, p => ([], TerminatorType.unset, p)
  | n + 1, p =>
    if p.reachedEOF then ([], TerminatorType.unset, p)
    else
      let (eolFound, p1) := scanEOL S p
      if eolFound then ([], TerminatorType.EOL, p1)
      else
        let (sepFound, p2) := scanHeaderSeparator S p1
        if sepFound then ([], TerminatorType.HEADER_SEPARATOR, p2)
        else
          match S.readByte p2.stream with
          | (Option.none, s') => ([], TerminatorType.unset, { p2 with stream := s', reachedEOF := true })
          | (some c, s') =>
            let (lit, t, pf) := scanTillTerminator n { p2 with stream := s' }
            (c :: lit, t, pf)

/-- The token scan of nextToken after the frame-boundary prelude
(parsing.go lines 167-208). -/
def nextTokenCore (p : StompParser σ) : TokenType × List Byte × StompParser σ :=
  match S.peek1 p.stream with
  | (Option.none, s') => (TokenType.NULL_TOKEN, [], { p with stream := s', reachedEOF := true })
  | (some c, s') =>
    let p := { p with stream := s' }
    if c = 0 then
      (TokenType.DELIMITER, [c], { consume1 S p with frameJustEnded := true })
    else if c = 13 ∨ c = 10 then
      let (found, p1) := scanEOL S p
      if found then
        let (lit, p2) := scanTillDelimiter S (S.size p1.stream + 1) p1
        (TokenType.BODY, lit, p2)
      else (TokenType.INVALID_TOKEN, [], p1)
    else if c = 58 then
      let p1 := consume1 S p
      let (lit, term, p2) := scanTillTerminator S (S.size p1.stream + 1) p1
      if term = TerminatorType.EOL then (TokenType.HEADER_VALUE, lit, p2)
      else (TokenType.INVALID_TOKEN, lit, p2)
    else
      let (lit, term, p2) := scanTillTerminator S (S.size p.stream + 1) p
      if isCommand lit ∧ term = TerminatorType.EOL then (TokenType.COMMAND, lit, p2)
      else if term = TerminatorType.HEADER_SEPARATOR then (TokenType.HEADER_KEY, lit, p2)
      else (TokenType.INVALID_TOKEN, lit, p2)

/-- nextToken of parsing.go (lines 159-209): the frame-boundary prelude
(lines 162-165) followed by the token scan. -/
def nextToken (p : StompParser σ) : TokenType × List Byte × StompParser σ :=
  let p :=
    if p.frameJustEnded then
      let p1 := skipEOLs S (S.size p.stream + 1) p
      { p1 with frameJustEnded := false }
    else p
  nextTokenCore S p

/-- Result of the header loop of NextFrame: either the early return
with the ParseError about header values, or the token that ended the
loop together with the headers collected so far. -/
inductive HeaderLoopResult where
  | err (msg : String)
  | exit (t : TokenType) (l : List Byte) (hs : Headers)
deriving DecidableEq, Repr

/-- The for-loop of NextFrame (parsing.go lines 89-102), with fuel.
Arguments t and l are the token that was fetched before the loop test. -/
def headerLoop : Nat → TokenType → List Byte → StompParser σ → Headers →
    HeaderLoopResult × StompParser σ
  | 0, t, l, p, hs => (HeaderLoopResult.exit t l hs, p)
  | n + 1, t, l, p, hs =>
    if t = TokenType.HEADER_KEY then
      let key := l
      let (t2, l2, p2) := nextToken S p
      if t2 ≠ TokenType.HEADER_VALUE ∧ p2.reachedEOF = false then
        (HeaderLoopResult.err "Headers must have values", p2)
      else
        let hs' := setHeader hs key l2
        let (t3, l3, p3) := nextToken S p2
        headerLoop n t3 l3 p3 hs'
    else (HeaderLoopResult.exit t l hs, p)

/-- The Delimiter section of NextFrame (parsing.go lines 116-122). -/
def delimiterStage (cmd : Nat) (hs : Headers) (body : List Byte) (p : StompParser σ) :
    Outcome × StompParser σ :=
  let (t4, _, p4) := nextToken S p
  if t4 ≠ TokenType.DELIMITER ∧ p4.reachedEOF = false then
    (Outcome.parseError "Frames must end with a null byte", p4)
  else (Outcome.frame ⟨cmd, hs, body⟩, p4)

/-- The Body section of NextFrame (parsing.go lines 104-114): the body
check, then the end-of-stream return, then the delimiter stage. -/
def bodyStage (cmd : Nat) (t : TokenType) (l : List Byte) (hs : Headers) (p : StompParser σ) :
    Outcome × StompParser σ :=
  if t ≠ TokenType.BODY ∧ p.reachedEOF = false then
    (Outcome.parseError "Frames must contain bodies", p)
  else if p.reachedEOF then (Outcome.eof, p)
  else delimiterStage S cmd hs l p

/-- NextFrame of parsing.go (lines 78-123). -/
def NextFrame (p : StompParser σ) : Outcome × StompParser σ :=
  let (t1, l1, p1) := nextToken S p
  if t1 ≠ TokenType.COMMAND ∧ p1.reachedEOF = false then
    (Outcome.parseError "Frame must begin with a command", p1)
  else
    let cmd := commandsLookup l1
    let (t2, l2, p2) := nextToken S p1
    let (r, p3) := headerLoop S (S.size p1.stream + 1) t2 l2 p2 []
    match r with
    | HeaderLoopResult.err m => (Outcome.parseError m, p3)
    | HeaderLoopResult.exit t l hs => bodyStage S cmd t l hs p3

/-- The outcomes of n successive NextFrame calls. -/
def outcomes : Nat → StompParser σ → List Outcome
  | 0, _ => []
  | n + 1, p =>
    let (o, p') := NextFrame S p
    o :: outcomes n p'

end Generic

/-! ## The idealised list source -/

/-- ReadPeeker instance over the plain list of remaining bytes. -/
def listRP : ReadPeeker (List Byte) where
  peek1 := fun s => (s.head?, s)
  peek2 := fun s =>
    match s with
    | a :: b :: _ => (some (a, b), s)
    | _ => (Option.none, s)
  readByte := fun s =>
    match s with
    | b :: r => (some b, r)
    | [] => (Option.none, s)
  size := List.length

/-- NewStompParserFromReader: fresh parser state over a byte stream. -/
def mkParser (bs : List Byte) : StompParser (List Byte) := ⟨bs, false, false⟩

/-! ## The buffered chunked source

Model of bufio.Reader wrapping the mockTCPStream of parsing_test.go.
The mock delivers the stream data in successive Read calls of sizes
sched 0, sched 1, ... (capped by the bytes left), and reports io.EOF
together with the read that delivers the last byte.  bufio.Reader
keeps a buffer of bytes already read from the transport plus a sticky
error; Peek refills the buffer until it holds the requested bytes or
the error is set. -/

structure BufState where
  buf : List Byte
  src : List Byte
  readNo : Nat
  errSticky : Bool
deriving DecidableEq, Repr

/-- READ_SIZES_BYTES of parsing_test.go. -/
def READ_SIZES_BYTES : List Nat := [1, 8, 32, 12, 5, 2]

/-- The read-size schedule of the mock: sizes cycle through READ_SIZES_BYTES. -/
def cycleSched (i : Nat) : Nat := READ_SIZES_BYTES.getD (i % 6) 1

/-- One Read call of mockTCPStream: deliver min(sched readNo, bytes left)
bytes and report io.EOF exactly when the cursor reaches the end. -/
def mockRead (sched : Nat → Nat) (st : BufState) : List Byte × BufState :=
  let readSize := sched st.readNo
  let bytesToRead := min readSize st.src.length
  let delivered := st.src.take bytesToRead
  let src' := st.src.drop bytesToRead
  (delivered,
    { st with
      src := src'
      readNo := st.readNo + 1
      errSticky := st.errSticky || src'.isEmpty })

/-- The fill loop of bufio.Reader: read from the transport until the
buffer holds k bytes or the sticky error is set (with fuel). -/
def bufFill (sched : Nat → Nat) : Nat → Nat → BufState → BufState
  | 0, _, st => st
  | n + 1, k, st =>
    if k ≤ st.buf.length ∨ st.errSticky = true then st
    else
      let (delivered, st') := mockRead sched st
      bufFill sched n k { st' with buf := st.buf ++ delivered }

/-- bufio Peek(1) over the mock transport. -/
def bufPeek1 (sched : Nat → Nat) (st : BufState) : Option Byte × BufState :=
  let st' := bufFill sched (st.src.length + 1) 1 st
  match st'.buf with
  | b :: _ => (some b, st')
  | [] => (Option.none, st')

/-- bufio Peek(2) over the mock transport. -/
def bufPeek2 (sched : Nat → Nat) (st : BufState) : Option (Byte × Byte) × BufState :=
  let st' := bufFill sched (st.src.length + 1) 2 st
  match st'.buf with
  | a :: b :: _ => (some (a, b), st')
  | _ => (Option.none, st')

/-- bufio ReadByte over the mock transport. -/
def bufReadByte (sched : Nat → Nat) (st : BufState) : Option Byte × BufState :=
  let st' := bufFill sched (st.src.length + 1) 1 st
  match st'.buf with
  | b :: r => (some b, { st' with buf := r })
  | [] => (Option.none, st')

/-- ReadPeeker instance over the buffered chunked transport. -/
def bufRP (sched : Nat → Nat) : ReadPeeker BufState where
  peek1 := bufPeek1 sched
  peek2 := bufPeek2 sched
  readByte := bufReadByte sched
  size := fun st => st.buf.length + st.src.length

/-- Fresh parser over a bufio.Reader that has not read anything yet. -/
def mkBufParser (bs : List Byte) : StompParser BufState := ⟨⟨[], bs, 0, false⟩, false, false⟩

/-- The schedule that delivers the whole stream in one unchunked read. -/
def oneShotSched (bs : List Byte) : Nat → Nat := fun _ => bs.length + 1

/-! ## The wire grammar (spec section 6)

FRAME := COMMAND EOL (HEADER)* EOL BODY NUL, HEADER := KEY 58 VALUE EOL,
EOL := LF | CR LF, NUL := 0.  KEY is nonempty and KEY and VALUE contain
none of NUL, LF, CR, 58; BODY contains no NUL.  Each EOL may
independently be LF or CR LF, recorded by a Bool (true = CR LF). -/

def eolBytes (b : Bool) : List Byte := if b then [13, 10] else [10]

/-- One header line of a frame, with its end-of-line style. -/
structure HLine where
  key : List Byte
  val : List Byte
  e : Bool
deriving DecidableEq, Repr

/-- A frame of the wire grammar, before encoding. -/
structure WFrame where
  cmd : List Byte
  e0 : Bool
  hs : List HLine
  eB : Bool
  body : List Byte
deriving DecidableEq, Repr

def encHeader (h : HLine) : List Byte := h.key ++ 58 :: (h.val ++ eolBytes h.e)

def encHeaders (hs : List HLine) : List Byte := (hs.map encHeader).flatten

/-- The byte encoding of a frame per the wire grammar. -/
def encodeFrame (f : WFrame) : List Byte :=
  f.cmd ++ eolBytes f.e0 ++ (encHeaders f.hs ++ (eolBytes f.eB ++ (f.body ++ [0])))

/-- Encoding of a stream of frames with nothing between or after them. -/
def encodeStream (fs : List WFrame) : List Byte := (fs.map encodeFrame).flatten

/-- A byte that may appear in a header key or value: not NUL, LF, CR
or the colon separator. -/
def cleanByte (b : Byte) : Prop := b ≠ 0 ∧ b ≠ 10 ∧ b ≠ 13 ∧ b ≠ 58

instance (b : Byte) : Decidable (cleanByte b) := by unfold cleanByte; infer_instance

def cleanList (l : List Byte) : Prop := ∀ b ∈ l, cleanByte b

instance (l : List Byte) : Decidable (cleanList l) := by
  unfold cleanList; exact List.decidableBAll _ l

/-- Well-formedness of a frame per the wire grammar. -/
def WF (f : WFrame) : Prop :=
  isCommand f.cmd = true ∧
  (∀ h ∈ f.hs, h.key ≠ [] ∧ cleanList h.key ∧ cleanList h.val) ∧
  (∀ b ∈ f.body, b ≠ 0)

instance (f : WFrame) : Decidable (WF f) := by unfold WF; infer_instance

/-- The headers map that the assembler builds from the header lines. -/
def expectedHeaders (hs : List HLine) : Headers :=
  hs.foldl (fun a h => setHeader a h.key h.val) []

/-- The Frame value NextFrame returns for a well-formed encoded frame. -/
def expectedFrame (f : WFrame) : Frame :=
  ⟨commandsLookup f.cmd, expectedHeaders f.hs, f.body⟩

/-- The value of the last header line with the given key, if any. -/
def lastHeaderValue (k : List Byte) (hs : List HLine) : Option (List Byte) :=
  (hs.reverse.find? (fun h => h.key = k)).map HLine.val

/-! ## Abstraction of the buffered source to the plain byte list -/

/-- The bytes not yet consumed by the parser: buffered bytes followed
by the bytes the mock transport has not delivered yet. -/
def flatBuf (st : BufState) : List Byte := st.buf ++ st.src

/-- The mock sets io.EOF exactly when its cursor reaches the end, so a
sticky error means no bytes remain undelivered. -/
def bufInv (st : BufState) : Prop := st.errSticky = true → st.src = []

/-- Simulation relation between a parser over the buffered chunked
source and a parser over the plain list of remaining bytes. -/
def Rel (q : StompParser BufState) (p : StompParser (List Byte)) : Prop :=
  p.stream = flatBuf q.stream ∧ bufInv q.stream ∧
  p.reachedEOF = q.reachedEOF ∧ p.frameJustEnded = q.frameJustEnded

/-! ## Computation lemmas for the idealised list source -/

theorem listRP_peek1_cons (b : Byte) (l : List Byte) : listRP.peek1 (b :: l) = (some b, b :: l) := rfl

theorem listRP_peek1_nil : listRP.peek1 [] = (Option.none, []) := rfl

theorem listRP_readByte_cons (b : Byte) (l : List Byte) : listRP.readByte (b :: l) = (some b, l) := rfl

theorem listRP_size (l : List Byte) : listRP.size l = l.length := rfl

theorem scanEOL_lf (b : Byte) (l : List Byte) (e fj : Bool) :
    scanEOL listRP ⟨10 :: b :: l, e, fj⟩ = (true, ⟨b :: l, e, fj⟩) := rfl

theorem scanEOL_crlf (l : List Byte) (e fj : Bool) :
    scanEOL listRP ⟨13 :: 10 :: l, e, fj⟩ = (true, ⟨l, e, fj⟩) := rfl

theorem scanEOL_other (b0 b1 : Byte) (l : List Byte) (e fj : Bool)
    (h0 : b0 ≠ 10) (h1 : ¬(b0 = 13 ∧ b1 = 10)) :
    scanEOL listRP ⟨b0 :: b1 :: l, e, fj⟩ = (false, ⟨b0 :: b1 :: l, e, fj⟩) := by
  simp only [scanEOL, listRP, consume1]
  rw [if_neg h0, if_neg h1]

theorem scanEOL_short (l : List Byte) (hl : l.length < 2) (e fj : Bool) :
    scanEOL listRP ⟨l, e, fj⟩ = (false, ⟨l, true, fj⟩) := by
  match l with
  | [] => rfl
  | [a] => rfl
  | a :: b :: t => simp at hl; omega

theorem scanHeaderSeparator_cons (b : Byte) (l : List Byte) (e fj : Bool) :
    scanHeaderSeparator listRP ⟨b :: l, e, fj⟩ = ((b == 58 : Bool), ⟨b :: l, e, fj⟩) := rfl

theorem scanHeaderSeparator_nil (e fj : Bool) :
    scanHeaderSeparator listRP ⟨[], e, fj⟩ = (false, ⟨[], true, fj⟩) := rfl

theorem skipEOLs_noop (n : Nat) (b0 b1 : Byte) (l : List Byte) (e fj : Bool)
    (h0 : b0 ≠ 10) (h1 : ¬(b0 = 13 ∧ b1 = 10)) :
    skipEOLs listRP n ⟨b0 :: b1 :: l, e, fj⟩ = ⟨b0 :: b1 :: l, e, fj⟩ := by
  cases n with
  | zero => rfl
  | succ m => simp [skipEOLs, scanEOL_other b0 b1 l e fj h0 h1]

/-- One consuming step of scanTillTerminator: a clean head byte with at
least one byte behind it is appended to the literal. -/
theorem stt_step (c d : Byte) (rest : List Byte) (fu : Nat) (fj : Bool) (hc : cleanByte c) :
    scanTillTerminator listRP (fu + 1) ⟨c :: d :: rest, false, fj⟩ =
      (let r := scanTillTerminator listRP fu ⟨d :: rest, false, fj⟩
       (c :: r.1, r.2.1, r.2.2)) := by
  obtain ⟨hc0, hc10, hc13, hc58⟩ := hc
  have h1 : ¬(c = 13 ∧ d = 10) := fun h => hc13 h.1
  simp only [scanTillTerminator, Bool.false_eq_true, if_false,
    scanEOL_other c d rest false fj hc10 h1, scanHeaderSeparator_cons]
  have : (c == 58 : Bool) = false := by simp [hc58]
  simp only [this, Bool.false_eq_true, if_false, listRP]

theorem stt_eol (pre : List Byte) (hpre : cleanList pre) (e : Bool) (s0 : Byte)
    (suffix : List Byte) (fu : Nat) (hfu : pre.length + 1 ≤ fu) (fj : Bool) :
    scanTillTerminator listRP fu ⟨pre ++ (eolBytes e ++ s0 :: suffix), false, fj⟩ =
      (pre, TerminatorType.EOL, ⟨s0 :: suffix, false, fj⟩) := by
  induction pre generalizing fu with
  | nil =>
    obtain ⟨m, rfl⟩ : ∃ m, fu = m + 1 := ⟨fu - 1, by omega⟩
    cases e with
    | false =>
      simp only [List.nil_append, eolBytes, Bool.false_eq_true, if_false]
      simp [scanTillTerminator, scanEOL_lf]
    | true =>
      simp only [List.nil_append, eolBytes, if_true]
      simp [scanTillTerminator, scanEOL_crlf]
  | cons c pre' ih =>
    obtain ⟨m, rfl⟩ : ∃ m, fu = m + 1 := ⟨fu - 1, by omega⟩
    obtain ⟨d, t, hdt⟩ : ∃ d t, pre' ++ (eolBytes e ++ s0 :: suffix) = d :: t := by
      cases pre' with
      | nil => cases e <;> exact ⟨_, _, rfl⟩
      | cons a l' => exact ⟨a, _, rfl⟩
    have hc : cleanByte c := hpre c (by simp)
    have hpre' : cleanList pre' := fun b hb => hpre b (by simp [hb])
    have hm : pre'.length + 1 ≤ m := by simp at hfu; omega
    rw [List.cons_append, hdt, stt_step c d t m fj hc, ← hdt, ih hpre' m hm]

theorem stt_sep (pre : List Byte) (hpre : cleanList pre) (s0 : Byte)
    (suffix : List Byte) (fu : Nat) (hfu : pre.length + 1 ≤ fu) (fj : Bool) :
    scanTillTerminator listRP fu ⟨pre ++ 58 :: s0 :: suffix, false, fj⟩ =
      (pre, TerminatorType.HEADER_SEPARATOR, ⟨58 :: s0 :: suffix, false, fj⟩) := by
  induction pre generalizing fu with
  | nil =>
    obtain ⟨m, rfl⟩ : ∃ m, fu = m + 1 := ⟨fu - 1, by omega⟩
    have h58 : (58 : Byte) ≠ 10 := by decide
    have h58' : ¬((58 : Byte) = 13 ∧ s0 = 10) := fun h => by cases h.1
    simp [scanTillTerminator, scanEOL_other 58 s0 suffix false fj h58 h58',
      scanHeaderSeparator_cons]
  | cons c pre' ih =>
    obtain ⟨m, rfl⟩ : ∃ m, fu = m + 1 := ⟨fu - 1, by omega⟩
    obtain ⟨d, t, hdt⟩ : ∃ d t, pre' ++ 58 :: s0 :: suffix = d :: t := by
      cases pre' with
      | nil => exact ⟨_, _, rfl⟩
      | cons a l' => exact ⟨a, _, rfl⟩
    have hc : cleanByte c := hpre c (by simp)
    have hpre' : cleanList pre' := fun b hb => hpre b (by simp [hb])
    have hm : pre'.length + 1 ≤ m := by simp at hfu; omega
    rw [List.cons_append, hdt, stt_step c d t m fj hc, ← hdt, ih hpre' m hm]

/-- One consuming step of scanTillDelimiter: a nonzero head byte is
appended to the literal. -/
theorem stD_step (c : Byte) (rest : List Byte) (fu : Nat) (e fj : Bool) (hc : c ≠ 0) :
    scanTillDelimiter listRP (fu + 1) ⟨c :: rest, e, fj⟩ =
      (let r := scanTillDelimiter listRP fu ⟨rest, e, fj⟩
       (c :: r.1, r.2)) := by
  simp only [scanTillDelimiter, listRP_peek1_cons, if_neg hc, listRP_readByte_cons]

theorem isCommand_mem (l : List Byte) (h : isCommand l = true) : l ∈ verbStrings := by
  simpa [isCommand] using h

theorem isCommand_clean (l : List Byte) (h : isCommand l = true) : cleanList l := by
  have hm := isCommand_mem l h
  fin_cases hm <;> decide

theorem isCommand_len (l : List Byte) (h : isCommand l = true) : 2 ≤ l.length := by
  have hm := isCommand_mem l h
  fin_cases hm <;> decide

theorem cons2_of_two_le (l : List Byte) (h : 2 ≤ l.length) : ∃ a b t, l = a :: b :: t := by
  cases l with
  | nil => simp at h
  | cons a l' =>
    cases l' with
    | nil => simp at h
    | cons b t => exact ⟨a, b, t, rfl⟩

theorem stD_pre (pre : List Byte) (hpre : ∀ b ∈ pre, b ≠ 0) (rest : List Byte)
    (fu : Nat) (hfu : pre.length + 1 ≤ fu) (e fj : Bool) :
    scanTillDelimiter listRP fu ⟨pre ++ 0 :: rest, e, fj⟩ = (pre, ⟨0 :: rest, e, fj⟩) := by
  induction pre generalizing fu with
  | nil =>
    obtain ⟨m, rfl⟩ : ∃ m, fu = m + 1 := ⟨fu - 1, by omega⟩
    simp [scanTillDelimiter, listRP_peek1_cons]
  | cons c pre' ih =>
    obtain ⟨m, rfl⟩ : ∃ m, fu = m + 1 := ⟨fu - 1, by omega⟩
    have hc : c ≠ 0 := hpre c (by simp)
    have hpre' : ∀ b ∈ pre', b ≠ 0 := fun b hb => hpre b (by simp [hb])
    have hm : pre'.length + 1 ≤ m := by simp at hfu; omega
    rw [List.cons_append, stD_step c _ m e fj hc, ih hpre' m hm]

/-! ## nextToken on the segments of an encoded frame -/

theorem nextToken_fje_false (p : StompParser (List Byte)) (h : p.frameJustEnded = false) :
    nextToken listRP p = nextTokenCore listRP p := by
  simp [nextToken, h]

theorem nextToken_fje_true (p : StompParser (List Byte)) (h : p.frameJustEnded = true) :
    nextToken listRP p =
      nextTokenCore listRP
        { skipEOLs listRP (p.stream.length + 1) p with frameJustEnded := false } := by
  simp [nextToken, h, listRP_size]

/-- Branch selection in nextTokenCore: a clean head byte goes to the
default scanTillTerminator branch. -/
theorem ntCore_default (c : Byte) (rest : List Byte) (e fj : Bool) (hc : cleanByte c) :
    nextTokenCore listRP ⟨c :: rest, e, fj⟩ =
      (let r := scanTillTerminator listRP ((c :: rest).length + 1) ⟨c :: rest, e, fj⟩
       if isCommand r.1 ∧ r.2.1 = TerminatorType.EOL then (TokenType.COMMAND, r.1, r.2.2)
       else if r.2.1 = TerminatorType.HEADER_SEPARATOR then (TokenType.HEADER_KEY, r.1, r.2.2)
       else (TokenType.INVALID_TOKEN, r.1, r.2.2)) := by
  obtain ⟨hc0, hc10, hc13, hc58⟩ := hc
  have hor : ¬(c = 13 ∨ c = 10) := by simp [hc13, hc10]
  simp only [nextTokenCore, listRP_peek1_cons, if_neg hc0, if_neg hor, if_neg hc58, listRP_size]

/-- Branch selection in nextTokenCore: a colon head byte goes to the
header-value branch, consuming the colon. -/
theorem ntCore_colon (rest : List Byte) (e fj : Bool) :
    nextTokenCore listRP ⟨58 :: rest, e, fj⟩ =
      (let r := scanTillTerminator listRP (rest.length + 1) ⟨rest, e, fj⟩
       if r.2.1 = TerminatorType.EOL then (TokenType.HEADER_VALUE, r.1, r.2.2)
       else (TokenType.INVALID_TOKEN, r.1, r.2.2)) := by
  have h0 : (58 : Byte) ≠ 0 := by decide
  have hor : ¬((58 : Byte) = 13 ∨ (58 : Byte) = 10) := by decide
  simp only [nextTokenCore, listRP_peek1_cons, if_neg h0, if_neg hor, if_pos rfl,
    consume1, listRP_readByte_cons, listRP_size]
  simp

/-- Branch selection in nextTokenCore: a CR or LF head byte goes to the
body branch via scanEOL. -/
theorem ntCore_eolStart (c : Byte) (rest : List Byte) (e fj : Bool) (hc : c = 13 ∨ c = 10) :
    nextTokenCore listRP ⟨c :: rest, e, fj⟩ =
      (let r := scanEOL listRP ⟨c :: rest, e, fj⟩
       if r.1 then
         let d := scanTillDelimiter listRP (r.2.stream.length + 1) r.2
         (TokenType.BODY, d.1, d.2)
       else (TokenType.INVALID_TOKEN, [], r.2)) := by
  have h0 : c ≠ 0 := by rcases hc with rfl | rfl <;> decide
  simp only [nextTokenCore, listRP_peek1_cons, if_neg h0, if_pos hc, listRP_size]

theorem nt_empty (fj : Bool) :
    nextToken listRP ⟨[], false, fj⟩ = (TokenType.NULL_TOKEN, [], ⟨[], true, false⟩) := by
  cases fj <;> rfl

theorem nt_delimiter (rest : List Byte) (e : Bool) :
    nextToken listRP ⟨0 :: rest, e, false⟩ = (TokenType.DELIMITER, [0], ⟨rest, e, true⟩) := rfl

/-- The command token: a verb followed by an EOL and at least one more
byte lexes as COMMAND, consuming the verb and the EOL. -/
theorem nt_command (cmd : List Byte) (hcmd : isCommand cmd = true) (e : Bool) (s0 : Byte)
    (suffix : List Byte) (fj : Bool) :
    nextToken listRP ⟨cmd ++ (eolBytes e ++ s0 :: suffix), false, fj⟩ =
      (TokenType.COMMAND, cmd, ⟨s0 :: suffix, false, false⟩) := by
  have hclean := isCommand_clean cmd hcmd
  obtain ⟨a, b, t, hshape⟩ := cons2_of_two_le cmd (isCommand_len cmd hcmd)
  have ha : cleanByte a := hclean a (by rw [hshape]; simp)
  have hcons : cmd ++ (eolBytes e ++ s0 :: suffix) =
      a :: (b :: t ++ (eolBytes e ++ s0 :: suffix)) := by rw [hshape]; rfl
  have hstt : scanTillTerminator listRP ((cmd ++ (eolBytes e ++ s0 :: suffix)).length + 1)
      ⟨cmd ++ (eolBytes e ++ s0 :: suffix), false, false⟩ =
      (cmd, TerminatorType.EOL, ⟨s0 :: suffix, false, false⟩) := by
    exact stt_eol cmd hclean e s0 suffix _
      (by simp only [List.length_append, List.length_cons]; omega) false
  cases fj with
  | false =>
    rw [nextToken_fje_false _ rfl, hcons, ntCore_default a _ false false ha, ← hcons]
    simp only [hstt]
    simp [hcmd]
  | true =>
    rw [nextToken_fje_true _ rfl]
    have hskip : skipEOLs listRP ((cmd ++ (eolBytes e ++ s0 :: suffix)).length + 1)
        ⟨cmd ++ (eolBytes e ++ s0 :: suffix), false, true⟩ =
        ⟨cmd ++ (eolBytes e ++ s0 :: suffix), false, true⟩ := by
      rw [hcons]
      obtain ⟨d, t', hdt⟩ : ∃ d t', b :: t ++ (eolBytes e ++ s0 :: suffix) = d :: t' :=
        ⟨b, _, rfl⟩
      rw [hdt]
      exact skipEOLs_noop _ a d _ false true ha.2.1 (fun h => ha.2.2.1 h.1)
    rw [hskip]
    rw [show ({ (⟨cmd ++ (eolBytes e ++ s0 :: suffix), false, true⟩ : StompParser (List Byte))
        with frameJustEnded := false } : StompParser (List Byte)) =
        ⟨cmd ++ (eolBytes e ++ s0 :: suffix), false, false⟩ from rfl]
    rw [hcons, ntCore_default a _ false false ha, ← hcons]
    simp only [hstt]
    simp [hcmd]

/-- The header-key token: a clean nonempty key followed by a colon and
at least two more bytes lexes as HEADER_KEY, leaving the colon unread. -/
theorem nt_headerKey (key : List Byte) (hk : cleanList key) (hne : key ≠ [])
    (s0 : Byte) (suffix : List Byte) :
    nextToken listRP ⟨key ++ 58 :: s0 :: suffix, false, false⟩ =
      (TokenType.HEADER_KEY, key, ⟨58 :: s0 :: suffix, false, false⟩) := by
  obtain ⟨a, t, hshape⟩ := List.exists_cons_of_ne_nil hne
  have ha : cleanByte a := hk a (by rw [hshape]; simp)
  have hcons : key ++ 58 :: s0 :: suffix = a :: (t ++ 58 :: s0 :: suffix) := by
    rw [hshape]; rfl
  have hstt : scanTillTerminator listRP ((key ++ 58 :: s0 :: suffix).length + 1)
      ⟨key ++ 58 :: s0 :: suffix, false, false⟩ =
      (key, TerminatorType.HEADER_SEPARATOR, ⟨58 :: s0 :: suffix, false, false⟩) := by
    exact stt_sep key hk s0 suffix _
      (by simp only [List.length_append, List.length_cons]; omega) false
  have hnotcmd : ¬(isCommand key = true ∧
      TerminatorType.HEADER_SEPARATOR = TerminatorType.EOL) := by
    rintro ⟨-, h⟩; cases h
  rw [nextToken_fje_false _ rfl, hcons, ntCore_default a _ false false ha, ← hcons]
  simp only [hstt, if_neg hnotcmd]
  simp

/-- The header-value token: a colon, a clean value, an EOL and at least
one more byte lex as HEADER_VALUE. -/
theorem nt_headerValue (val : List Byte) (hv : cleanList val) (e : Bool) (s0 : Byte)
    (suffix : List Byte) :
    nextToken listRP ⟨58 :: (val ++ (eolBytes e ++ s0 :: suffix)), false, false⟩ =
      (TokenType.HEADER_VALUE, val, ⟨s0 :: suffix, false, false⟩) := by
  rw [nextToken_fje_false _ rfl, ntCore_colon _ false false]
  have hstt : scanTillTerminator listRP ((val ++ (eolBytes e ++ s0 :: suffix)).length + 1)
      ⟨val ++ (eolBytes e ++ s0 :: suffix), false, false⟩ =
      (val, TerminatorType.EOL, ⟨s0 :: suffix, false, false⟩) := by
    exact stt_eol val hv e s0 suffix _
      (by simp only [List.length_append, List.length_cons]; omega) false
  simp only [hstt]
  simp

/-- The body token: an EOL followed by a NUL-free body and the NUL
delimiter lexes as BODY, stopping just before the NUL. -/
theorem nt_body (e : Bool) (body : List Byte) (hb : ∀ b ∈ body, b ≠ 0) (rest : List Byte) :
    nextToken listRP ⟨eolBytes e ++ (body ++ 0 :: rest), false, false⟩ =
      (TokenType.BODY, body, ⟨0 :: rest, false, false⟩) := by
  have hstD : scanTillDelimiter listRP ((body ++ 0 :: rest).length + 1)
      ⟨body ++ 0 :: rest, false, false⟩ = (body, ⟨0 :: rest, false, false⟩) := by
    exact stD_pre body hb rest _
      (by simp only [List.length_append, List.length_cons]; omega) false false
  cases e with
  | false =>
    rw [nextToken_fje_false _ rfl]
    rw [show eolBytes false ++ (body ++ 0 :: rest) = 10 :: (body ++ 0 :: rest) from rfl]
    obtain ⟨d, t, hdt⟩ : ∃ d t, body ++ 0 :: rest = d :: t := by
      cases body with
      | nil => exact ⟨0, rest, rfl⟩
      | cons x l => exact ⟨x, _, rfl⟩
    rw [hdt, ntCore_eolStart 10 _ false false (Or.inr rfl), scanEOL_lf, ← hdt]
    simp only [hstD]
    simp
  | true =>
    rw [nextToken_fje_false _ rfl]
    rw [show eolBytes true ++ (body ++ 0 :: rest) = 13 :: 10 :: (body ++ 0 :: rest) from rfl]
    rw [ntCore_eolStart 13 _ false false (Or.inl rfl)]
    rw [show (10 : Byte) :: (body ++ 0 :: rest) = 10 :: (body ++ 0 :: rest) from rfl]
    simp only [scanEOL_crlf, hstD]
    simp

/-! ## NextFrame on an encoded well-formed frame -/

theorem encHeaders_cons (h : HLine) (hs : List HLine) :
    encHeaders (h :: hs) = encHeader h ++ encHeaders hs := by
  simp [encHeaders]

theorem encTail_cons (hs : List HLine) (hwf : ∀ h ∈ hs, h.key ≠ []) (eB : Bool)
    (body rest : List Byte) :
    ∃ d t, encHeaders hs ++ (eolBytes eB ++ (body ++ 0 :: rest)) = d :: t := by
  cases hs with
  | nil =>
    cases eB with
    | false => exact ⟨10, body ++ 0 :: rest, by simp [encHeaders, eolBytes]⟩
    | true => exact ⟨13, 10 :: (body ++ 0 :: rest), by simp [encHeaders, eolBytes]⟩
  | cons h hs' =>
    obtain ⟨a, t', hshape⟩ := List.exists_cons_of_ne_nil (hwf h (by simp))
    refine ⟨a, t' ++ (58 :: (h.val ++ eolBytes h.e) ++
      (encHeaders hs' ++ (eolBytes eB ++ (body ++ 0 :: rest)))), ?_⟩
    rw [encHeaders_cons, encHeader, hshape]
    simp

/-- The header loop over the encoding of a list of well-formed header
lines followed by the blank line, body and delimiter: it accumulates
every key/value pair with map-assignment semantics and exits on the
BODY token that carries the body bytes. -/
theorem headerLoop_enc (hs : List HLine)
    (hwf : ∀ h ∈ hs, h.key ≠ [] ∧ cleanList h.key ∧ cleanList h.val)
    (eB : Bool) (body : List Byte) (hb : ∀ b ∈ body, b ≠ 0) (rest : List Byte)
    (acc : Headers) (fu : Nat) (hfu : hs.length + 1 ≤ fu) :
    (let r := nextToken listRP
        ⟨encHeaders hs ++ (eolBytes eB ++ (body ++ 0 :: rest)), false, false⟩
     headerLoop listRP fu r.1 r.2.1 r.2.2 acc) =
      (HeaderLoopResult.exit TokenType.BODY body
        (hs.foldl (fun a h => setHeader a h.key h.val) acc),
       ⟨0 :: rest, false, false⟩) := by
  induction hs generalizing acc fu with
  | nil =>
    rw [show encHeaders [] ++ (eolBytes eB ++ (body ++ 0 :: rest)) =
        eolBytes eB ++ (body ++ 0 :: rest) from by simp [encHeaders]]
    rw [nt_body eB body hb rest]
    cases fu <;> simp [headerLoop]
  | cons h hs' ih =>
    obtain ⟨hkne, hkcl, hvcl⟩ := hwf h (by simp)
    have hwf' : ∀ x ∈ hs', x.key ≠ [] ∧ cleanList x.key ∧ cleanList x.val :=
      fun x hx => hwf x (by simp [hx])
    obtain ⟨m, rfl⟩ : ∃ m, fu = m + 1 := ⟨fu - 1, by simp at hfu; omega⟩
    obtain ⟨d, tl, hdt⟩ := encTail_cons hs' (fun x hx => (hwf' x hx).1) eB body rest
    obtain ⟨s0, sfx, hsplit⟩ : ∃ s0 sfx, h.val ++ (eolBytes h.e ++ (d :: tl)) = s0 :: sfx := by
      cases hval : h.val with
      | nil =>
        cases h.e with
        | false => exact ⟨10, d :: tl, by simp [eolBytes]⟩
        | true => exact ⟨13, 10 :: (d :: tl), by simp [eolBytes]⟩
      | cons a l' => exact ⟨a, _, rfl⟩
    have henc : encHeaders (h :: hs') ++ (eolBytes eB ++ (body ++ 0 :: rest)) =
        h.key ++ 58 :: s0 :: sfx := by
      rw [encHeaders_cons, encHeader, ← hsplit, ← hdt]
      simp
    rw [henc, nt_headerKey h.key hkcl hkne s0 sfx]
    simp only [headerLoop, if_pos rfl]
    have hq : (⟨58 :: s0 :: sfx, false, false⟩ : StompParser (List Byte)) =
        ⟨58 :: (h.val ++ (eolBytes h.e ++ (d :: tl))), false, false⟩ := by rw [hsplit]
    rw [hq, nt_headerValue h.val hvcl h.e d tl]
    rcases hr : nextToken listRP ⟨d :: tl, false, false⟩ with ⟨t3, l3, p3⟩
    have ih' := ih hwf' (setHeader acc h.key h.val) m (by simp at hfu; omega)
    rw [hdt, hr] at ih'
    simp only at ih'
    simp only [ne_eq, not_true_eq_false, Bool.false_eq_true, false_and, if_false, hr]
    rw [ih']
    simp

theorem encHeaders_len (hs : List HLine) : hs.length ≤ (encHeaders hs).length := by
  induction hs with
  | nil => simp [encHeaders]
  | cons h hs' ih =>
    rw [encHeaders_cons]
    simp only [List.length_append, List.length_cons, encHeader]
    omega

/-- NextFrame consumes exactly the encoding of a well-formed frame and
returns its Frame value, leaving the parser at a frame boundary. -/
theorem NextFrame_enc (f : WFrame) (hwf : WF f) (rest : List Byte) (fj : Bool) :
    NextFrame listRP ⟨encodeFrame f ++ rest, false, fj⟩ =
      (Outcome.frame (expectedFrame f), ⟨rest, false, true⟩) := by
  obtain ⟨hcmd, hhs, hbody⟩ := hwf
  obtain ⟨d, tl, hdt⟩ := encTail_cons f.hs (fun x hx => (hhs x hx).1) f.eB f.body rest
  have hstream : encodeFrame f ++ rest = f.cmd ++ (eolBytes f.e0 ++ (d :: tl)) := by
    rw [encodeFrame, ← hdt]; simp
  rw [hstream]
  simp only [NextFrame]
  rw [nt_command f.cmd hcmd f.e0 d tl fj]
  simp only [ne_eq, not_true_eq_false, Bool.false_eq_true, false_and, if_false, listRP_size]
  rw [← hdt]
  have hl := headerLoop_enc f.hs hhs f.eB f.body hbody rest []
      ((encHeaders f.hs ++ (eolBytes f.eB ++ (f.body ++ 0 :: rest))).length + 1)
      (by have := encHeaders_len f.hs
          simp only [List.length_append, List.length_cons]
          omega)
  rcases hr : nextToken listRP
      ⟨encHeaders f.hs ++ (eolBytes f.eB ++ (f.body ++ 0 :: rest)), false, false⟩ with ⟨t2, l2, p2⟩
  rw [hr] at hl
  simp only at hl
  dsimp only
  rw [hl]
  simp only [bodyStage, ne_eq, not_true_eq_false, Bool.false_eq_true, false_and, if_false]
  simp only [delimiterStage]
  rw [nt_delimiter rest false]
  simp [expectedFrame, expectedHeaders]

/-! ## Path analysis: where EOF can be reported and what a BODY token
carries, over arbitrary parser states -/

theorem listRP_peek2_cons2 (a b : Byte) (l : List Byte) :
    listRP.peek2 (a :: b :: l) = (some (a, b), a :: b :: l) := rfl

theorem scanEOL_fje (p : StompParser (List Byte)) :
    ((scanEOL listRP p).2).frameJustEnded = p.frameJustEnded := by
  rcases p with ⟨s, e, fj⟩
  match s with
  | [] => rfl
  | [a] => rfl
  | a :: b :: t =>
    simp only [scanEOL, listRP_peek2_cons2, consume1, listRP_readByte_cons]
    split_ifs <;> rfl

/-- The literal of scanTillDelimiter never contains a NUL byte. -/
theorem stD_noNul (fu : Nat) (p : StompParser (List Byte)) :
    (0 : Byte) ∉ (scanTillDelimiter listRP fu p).1 := by
  induction fu generalizing p with
  | zero => simp [scanTillDelimiter]
  | succ n ih =>
    rcases p with ⟨s, e, fj⟩
    cases s with
    | nil => simp [scanTillDelimiter, listRP_peek1_nil]
    | cons b r =>
      by_cases hb : b = 0
      · subst hb; simp [scanTillDelimiter, listRP_peek1_cons]
      · rw [stD_step b r n e fj hb]
        simp only [List.mem_cons, not_or]
        exact ⟨fun h => hb h.symm, ih ⟨r, e, fj⟩⟩

/-- If scanTillDelimiter is run with sufficient fuel and does not
report exhaustion, it stopped at a NUL byte; the flags behave as
stated. -/
theorem stD_shape (fu : Nat) (p : StompParser (List Byte)) (hfu : p.stream.length < fu) :
    (((scanTillDelimiter listRP fu p).2).reachedEOF = false →
      p.reachedEOF = false ∧ ∃ rr, ((scanTillDelimiter listRP fu p).2).stream = 0 :: rr) ∧
    ((scanTillDelimiter listRP fu p).2).frameJustEnded = p.frameJustEnded := by
  induction fu generalizing p with
  | zero => omega
  | succ n ih =>
    rcases p with ⟨s, e, fj⟩
    cases s with
    | nil =>
      simp only [scanTillDelimiter, listRP_peek1_nil]
      exact ⟨fun h => by simp at h, trivial⟩
    | cons b r =>
      by_cases hb : b = 0
      · subst hb
        simp only [scanTillDelimiter, listRP_peek1_cons, if_pos rfl]
        exact ⟨fun h => ⟨h, r, rfl⟩, rfl⟩
      · rw [stD_step b r n e fj hb]
        simp only
        have := ih ⟨r, e, fj⟩ (by simp at hfu ⊢; omega)
        exact this

/-- A successful scanEOL leaves the EOF flag as it was. -/
theorem scanEOL_true_eof (p : StompParser (List Byte)) (h : (scanEOL listRP p).1 = true) :
    ((scanEOL listRP p).2).reachedEOF = p.reachedEOF := by
  rcases p with ⟨s, e, fj⟩
  match s with
  | [] => simp [scanEOL, listRP] at h
  | [a] => simp [scanEOL, listRP] at h
  | a :: b :: t =>
    simp only [scanEOL, listRP_peek2_cons2, consume1, listRP_readByte_cons]
    split_ifs <;> rfl

/-- Any BODY token produced by the core scan carries a NUL-free
literal, and if the scan did not report exhaustion it leaves the
cursor on the NUL delimiter with the boundary flag clear. -/
theorem ntCore_body_inv (q : StompParser (List Byte)) (hfje : q.frameJustEnded = false) :
    (nextTokenCore listRP q).1 = TokenType.BODY →
      (((nextTokenCore listRP q).2.2).reachedEOF = false →
        ∃ rr, ((nextTokenCore listRP q).2.2).stream = 0 :: rr) ∧
      ((nextTokenCore listRP q).2.2).frameJustEnded = false ∧
      (0 : Byte) ∉ (nextTokenCore listRP q).2.1 := by
  rcases q with ⟨s, e, fj⟩
  cases hfje
  cases s with
  | nil => intro h; simp [nextTokenCore, listRP_peek1_nil] at h
  | cons c r =>
    by_cases hc0 : c = 0
    · subst hc0
      intro h
      simp [nextTokenCore, listRP_peek1_cons] at h
    · by_cases hcr : c = 13 ∨ c = 10
      · rw [ntCore_eolStart c r e false hcr]
        rcases hscan : scanEOL listRP ⟨c :: r, e, false⟩ with ⟨found, q1⟩
        cases found with
        | false => intro h; simp at h
        | true =>
          intro _
          have hfje1 : q1.frameJustEnded = false := by
            have := scanEOL_fje ⟨c :: r, e, false⟩
            rw [hscan] at this
            exact this
          have hsh := stD_shape (q1.stream.length + 1) q1 (by omega)
          simp only [if_true]
          refine ⟨fun he => (hsh.1 he).2, ?_, stD_noNul (q1.stream.length + 1) q1⟩
          rw [hsh.2, hfje1]
      · by_cases hc58 : c = 58
        · subst hc58
          rw [ntCore_colon r e false]
          intro h
          simp only at h
          split_ifs at h
        · have hc : cleanByte c := by
            push_neg at hcr
            exact ⟨hc0, hcr.2, hcr.1, hc58⟩
          rw [ntCore_default c r e false hc]
          intro h
          simp only at h
          split_ifs at h

/-- nextToken always runs the core scan on a state whose boundary flag
is clear. -/
theorem nextToken_as_core (p : StompParser (List Byte)) :
    ∃ q, nextToken listRP p = nextTokenCore listRP q ∧ q.frameJustEnded = false := by
  cases hfj : p.frameJustEnded with
  | false =>
    refine ⟨p, ?_, hfj⟩
    simp [nextToken, hfj]
  | true =>
    refine ⟨{ skipEOLs listRP (listRP.size p.stream + 1) p with frameJustEnded := false }, ?_, rfl⟩
    simp [nextToken, hfj]

/-- The BODY-token invariant for full nextToken. -/
theorem nt_body_inv (p : StompParser (List Byte)) :
    (nextToken listRP p).1 = TokenType.BODY →
      (((nextToken listRP p).2.2).reachedEOF = false →
        ∃ rr, ((nextToken listRP p).2.2).stream = 0 :: rr) ∧
      ((nextToken listRP p).2.2).frameJustEnded = false ∧
      (0 : Byte) ∉ (nextToken listRP p).2.1 := by
  obtain ⟨q, hq, hfje⟩ := nextToken_as_core p
  rw [hq]
  exact ntCore_body_inv q hfje

/-- Unfolding: the header loop exits at once on a non-HEADER_KEY token. -/
theorem headerLoop_not_hk (n : Nat) (t : TokenType) (l : List Byte)
    (p : StompParser (List Byte)) (acc : Headers) (ht : t ≠ TokenType.HEADER_KEY) :
    headerLoop listRP (n + 1) t l p acc = (HeaderLoopResult.exit t l acc, p) := by
  simp [headerLoop, ht]

/-- Unfolding: the header loop errors on a header key whose value
position has the wrong token kind while EOF is clear. -/
theorem headerLoop_hk_err (n : Nat) (l : List Byte) (p : StompParser (List Byte))
    (acc : Headers)
    (hg : (nextToken listRP p).1 ≠ TokenType.HEADER_VALUE ∧
      ((nextToken listRP p).2.2).reachedEOF = false) :
    headerLoop listRP (n + 1) TokenType.HEADER_KEY l p acc =
      (HeaderLoopResult.err "Headers must have values", (nextToken listRP p).2.2) := by
  simp only [headerLoop, if_pos rfl]
  rw [if_pos hg]
  simp

/-- Unfolding: the header loop records the pair and continues when the
value check passes. -/
theorem headerLoop_hk_ok (n : Nat) (l : List Byte) (p : StompParser (List Byte))
    (acc : Headers)
    (hg : ¬((nextToken listRP p).1 ≠ TokenType.HEADER_VALUE ∧
      ((nextToken listRP p).2.2).reachedEOF = false)) :
    headerLoop listRP (n + 1) TokenType.HEADER_KEY l p acc =
      headerLoop listRP n
        (nextToken listRP ((nextToken listRP p).2.2)).1
        (nextToken listRP ((nextToken listRP p).2.2)).2.1
        (nextToken listRP ((nextToken listRP p).2.2)).2.2
        (setHeader acc l (nextToken listRP p).2.1) := by
  simp only [headerLoop, if_pos rfl]
  rw [if_neg hg]
  simp

/-- The header loop reports its ParseError only when the value
position was reached with the EOF flag still clear. -/
theorem headerLoop_err_eof (fu : Nat) (t : TokenType) (l : List Byte)
    (p : StompParser (List Byte)) (acc : Headers) (m : String)
    (h : (headerLoop listRP fu t l p acc).1 = HeaderLoopResult.err m) :
    ((headerLoop listRP fu t l p acc).2).reachedEOF = false := by
  induction fu generalizing t l p acc with
  | zero => simp [headerLoop] at h
  | succ n ih =>
    by_cases ht : t = TokenType.HEADER_KEY
    · subst ht
      by_cases hg : (nextToken listRP p).1 ≠ TokenType.HEADER_VALUE ∧
          ((nextToken listRP p).2.2).reachedEOF = false
      · rw [headerLoop_hk_err n l p acc hg]
        exact hg.2
      · rw [headerLoop_hk_ok n l p acc hg] at h ⊢
        exact ih _ _ _ _ h
    · rw [headerLoop_not_hk n t l p acc ht] at h
      simp at h

/-- The exit token of the header loop inherits the BODY-token
invariant from the tokens that feed the loop. -/
theorem headerLoop_exit_inv (fu : Nat) (t : TokenType) (l : List Byte)
    (p : StompParser (List Byte)) (acc : Headers)
    (hP : t = TokenType.BODY →
      (p.reachedEOF = false → ∃ rr, p.stream = 0 :: rr) ∧
      p.frameJustEnded = false ∧ (0 : Byte) ∉ l)
    (t' : TokenType) (l' : List Byte) (hs' : Headers)
    (h : (headerLoop listRP fu t l p acc).1 = HeaderLoopResult.exit t' l' hs') :
    t' = TokenType.BODY →
      (((headerLoop listRP fu t l p acc).2).reachedEOF = false →
        ∃ rr, ((headerLoop listRP fu t l p acc).2).stream = 0 :: rr) ∧
      ((headerLoop listRP fu t l p acc).2).frameJustEnded = false ∧
      (0 : Byte) ∉ l' := by
  induction fu generalizing t l p acc with
  | zero =>
    simp only [headerLoop] at h ⊢
    obtain ⟨rfl, rfl, -⟩ : t = t' ∧ l = l' ∧ acc = hs' := by
      cases h; exact ⟨rfl, rfl, rfl⟩
    exact hP
  | succ n ih =>
    by_cases ht : t = TokenType.HEADER_KEY
    · subst ht
      by_cases hg : (nextToken listRP p).1 ≠ TokenType.HEADER_VALUE ∧
          ((nextToken listRP p).2.2).reachedEOF = false
      · rw [headerLoop_hk_err n l p acc hg] at h
        simp at h
      · rw [headerLoop_hk_ok n l p acc hg] at h ⊢
        exact ih _ _ _ _ (nt_body_inv _) h
    · rw [headerLoop_not_hk n t l p acc ht] at h ⊢
      obtain ⟨rfl, rfl, -⟩ : t = t' ∧ l = l' ∧ acc = hs' := by
        cases h; exact ⟨rfl, rfl, rfl⟩
      exact hP

/-- Outcome dichotomy of one NextFrame call over any state: if the call
ends with the EOF flag set, the outcome is the end-of-stream signal;
and any returned Frame has a NUL-free body. -/
theorem NextFrame_outcome_props (p : StompParser (List Byte)) :
    (((NextFrame listRP p).2).reachedEOF = true → (NextFrame listRP p).1 = Outcome.eof) ∧
    (∀ fr, (NextFrame listRP p).1 = Outcome.frame fr → (0 : Byte) ∉ fr.Body) := by
  rcases hnt1 : nextToken listRP p with ⟨t1, l1, p1⟩
  simp only [NextFrame, hnt1]
  split_ifs with hg1
  · refine ⟨fun h => ?_, fun fr h => ?_⟩
    · rw [hg1.2] at h; cases h
    · cases h
  · rcases hnt2 : nextToken listRP p1 with ⟨t2, l2, p2⟩
    rcases hhl : headerLoop listRP (listRP.size p1.stream + 1) t2 l2 p2 [] with ⟨r, p3⟩
    cases r with
    | err m =>
      have hef := headerLoop_err_eof (listRP.size p1.stream + 1) t2 l2 p2 [] m
        (by rw [hhl])
      rw [hhl] at hef
      refine ⟨fun h => ?_, fun fr h => ?_⟩
      · rw [hef] at h; cases h
      · cases h
    | exit t l hs =>
      have hinv := headerLoop_exit_inv (listRP.size p1.stream + 1) t2 l2 p2 []
        (by have := nt_body_inv p1; rw [hnt2] at this; exact this) t l hs (by rw [hhl])
      rw [hhl] at hinv
      simp only at hinv ⊢
      simp only [bodyStage]
      split_ifs with hg3 he3
      · refine ⟨fun h => ?_, fun fr h => ?_⟩
        · rw [hg3.2] at h; cases h
        · cases h
      · exact ⟨fun _ => rfl, fun fr h => by cases h⟩
      · have ht : t = TokenType.BODY := by
          by_contra hne
          exact hg3 ⟨hne, by simpa using he3⟩
        obtain ⟨hstream, hfje, hnul⟩ := hinv ht
        obtain ⟨rr, hrr⟩ := hstream (by simpa using he3)
        have hp3 : p3 = ⟨0 :: rr, false, false⟩ := by
          rcases p3 with ⟨s3, e3, f3⟩
          simp only at hrr hfje
          simp at he3
          simp [hrr, hfje, he3]
        simp only [delimiterStage, hp3, nt_delimiter rr false]
        simp only [ne_eq, not_true_eq_false, Bool.false_eq_true, false_and, if_false]
        refine ⟨fun h => ?_, fun fr h => ?_⟩
        · cases h
        · obtain ⟨rfl⟩ : fr = ⟨commandsLookup l1, hs, l⟩ := by cases h; rfl
          simpa using hnul

/-! ## Streams of frames and end of stream -/

/-- On an empty stream NextFrame reports the end-of-stream signal. -/
theorem NextFrame_empty (e fj : Bool) :
    NextFrame listRP ⟨[], e, fj⟩ = (Outcome.eof, ⟨[], true, false⟩) := by
  cases e <;> cases fj <;> rfl

theorem encodeStream_cons (f : WFrame) (fs : List WFrame) :
    encodeStream (f :: fs) = encodeFrame f ++ encodeStream fs := by
  simp [encodeStream]

theorem outcomes_succ {σ : Type} (S : ReadPeeker σ) (n : Nat) (p : StompParser σ) :
    outcomes S (n + 1) p = (NextFrame S p).1 :: outcomes S n (NextFrame S p).2 := rfl

/-- Parsing a stream of N encoded well-formed frames: the first N calls
return the frames in order and the next call reports end of stream. -/
theorem outcomes_encodeStream (fs : List WFrame) (hwf : ∀ f ∈ fs, WF f) (fj : Bool) :
    outcomes listRP (fs.length + 1) ⟨encodeStream fs, false, fj⟩ =
      fs.map (fun f => Outcome.frame (expectedFrame f)) ++ [Outcome.eof] := by
  induction fs generalizing fj with
  | nil =>
    rw [show encodeStream [] = [] from rfl]
    simp [outcomes, NextFrame_empty false fj]
  | cons f fs' ih =>
    rw [encodeStream_cons]
    have h1 := NextFrame_enc f (hwf f (by simp)) (encodeStream fs') fj
    rw [show (f :: fs').length + 1 = (fs'.length + 1) + 1 from by simp]
    rw [outcomes_succ listRP (fs'.length + 1), h1]
    simp only
    rw [ih (fun x hx => hwf x (by simp [hx])) true]
    simp

/-! ## Headers as a map: last write wins -/

theorem lookupHeader_setHeader (hs : Headers) (k k' v : List Byte) :
    lookupHeader k' (setHeader hs k v) =
      if k = k' then some v else lookupHeader k' hs := by
  induction hs with
  | nil =>
    by_cases h : k = k' <;> simp [setHeader, lookupHeader, h]
  | cons hd tl ih =>
    rcases hd with ⟨k0, v0⟩
    by_cases h0 : k0 = k
    · subst h0
      by_cases h : k0 = k' <;> simp [setHeader, lookupHeader, h, ih]
    · simp only [setHeader, if_neg h0]
      by_cases h : k0 = k'
      · subst h
        have hk : ¬(k = k0) := fun hkk => h0 hkk.symm
        simp [lookupHeader, hk]
      · simp [lookupHeader, h, ih]

/-- Folding the header lines into the map realises last-write-wins:
the lookup of any key is the value of its last header line, falling
back to the accumulator for absent keys. -/
theorem lookupHeader_fold (hs : List HLine) (acc : Headers) (k : List Byte) :
    lookupHeader k (hs.foldl (fun a h => setHeader a h.key h.val) acc) =
      (match hs.reverse.find? (fun h => h.key = k) with
       | some h => some h.val
       | Option.none => lookupHeader k acc) := by
  induction hs generalizing acc with
  | nil => simp
  | cons h0 tl ih =>
    simp only [List.foldl_cons, List.reverse_cons]
    rw [ih (setHeader acc h0.key h0.val), List.find?_append]
    cases hf : tl.reverse.find? (fun h => decide (h.key = k)) with
    | some hh => simp [hf, Option.orElse]
    | none =>
      simp only [hf, Option.orElse]
      by_cases hk : h0.key = k
      · simp [List.find?, hk, lookupHeader_setHeader]
      · simp [List.find?, hk, lookupHeader_setHeader]

/-- The headers map of a parsed frame maps every key to the value of
the last header line carrying it. -/
theorem lookupHeader_expected (hs : List HLine) (k : List Byte) :
    lookupHeader k (expectedHeaders hs) = lastHeaderValue k hs := by
  rw [expectedHeaders, lookupHeader_fold hs [] k]
  cases h : hs.reverse.find? (fun h => decide (h.key = k)) with
  | some hh => simp [lastHeaderValue, h]
  | none => simp [lastHeaderValue, h, lookupHeader]

/-! ## Streams that begin with an end-of-line -/

theorem exists_first_zero (l : List Byte) (h : (0 : Byte) ∈ l) :
    ∃ pre suf, l = pre ++ 0 :: suf ∧ (0 : Byte) ∉ pre := by
  induction l with
  | nil => cases h
  | cons b t ih =>
    by_cases hb : b = 0
    · exact ⟨[], t, by rw [hb]; rfl, by simp⟩
    · have ht : (0 : Byte) ∈ t := by
        rcases List.mem_cons.mp h with h0 | h0
        · exact absurd h0.symm hb
        · exact h0
      obtain ⟨pre, suf, heq, hpre⟩ := ih ht
      exact ⟨b :: pre, suf, by simp [heq], by
        simp only [List.mem_cons, not_or]
        exact ⟨fun h0 => hb h0.symm, hpre⟩⟩

/-- A fresh parser whose stream starts with an EOL and contains a NUL
later: the first token is BODY and NextFrame reports the command
ParseError. -/
theorem NextFrame_leadingEOL (e : Bool) (rest : List Byte) (h : (0 : Byte) ∈ rest) :
    (nextToken listRP (mkParser (eolBytes e ++ rest))).1 = TokenType.BODY ∧
    (NextFrame listRP (mkParser (eolBytes e ++ rest))).1 =
      Outcome.parseError "Frame must begin with a command" := by
  obtain ⟨pre, suf, heq, hpre⟩ := exists_first_zero rest h
  subst heq
  have hnt := nt_body e pre (fun b hb h0 => hpre (h0 ▸ hb)) suf
  constructor
  · simp only [mkParser]
    rw [hnt]
  · simp only [mkParser, NextFrame]
    rw [hnt]
    have hne : TokenType.BODY ≠ TokenType.COMMAND := by decide
    rw [if_pos ⟨hne, rfl⟩]

/-! ## Claim theorems -/

/-- C2: for every stream consisting of N well-formed frames (per the
wire grammar FRAME := COMMAND EOL (HEADER)* EOL BODY NUL) and nothing
after them, the first N NextFrame calls each return a Frame with no
error, and the (N+1)-th call returns the end-of-stream signal. -/
theorem claim_C2 (fs : List WFrame) (hwf : ∀ f ∈ fs, WF f) :
    outcomes listRP (fs.length + 1) (mkParser (encodeStream fs)) =
      fs.map (fun f => Outcome.frame (expectedFrame f)) ++ [Outcome.eof] :=
  outcomes_encodeStream fs hwf false

theorem claim_C2_witness :
    (∀ f ∈ [(⟨strBytes "CONNECT", false,
              [⟨strBytes "accept-version", strBytes "1.2", false⟩], false, []⟩ : WFrame),
            ⟨strBytes "CONNECTED", true,
              [⟨strBytes "version", strBytes "1.2", false⟩], false, strBytes "ok"⟩], WF f) ∧
    outcomes listRP 3 (mkParser (encodeStream
        [⟨strBytes "CONNECT", false,
           [⟨strBytes "accept-version", strBytes "1.2", false⟩], false, []⟩,
         ⟨strBytes "CONNECTED", true,
           [⟨strBytes "version", strBytes "1.2", false⟩], false, strBytes "ok"⟩])) =
      [Outcome.frame ⟨10, [(strBytes "accept-version", strBytes "1.2")], []⟩,
       Outcome.frame ⟨12, [(strBytes "version", strBytes "1.2")], strBytes "ok"⟩,
       Outcome.eof] :=
  ⟨by decide,
   (claim_C2
     [⟨strBytes "CONNECT", false,
        [⟨strBytes "accept-version", strBytes "1.2", false⟩], false, []⟩,
      ⟨strBytes "CONNECTED", true,
        [⟨strBytes "version", strBytes "1.2", false⟩], false, strBytes "ok"⟩]
     (by decide)).trans rfl⟩

/-- C4 (amended): end-of-line matching peeks 2 bytes; provided at
least 2 bytes remain, a leading LF matches consuming 1 byte, a leading
CR LF matches consuming 2 bytes, and anything else does not match and
consumes nothing; when fewer than 2 bytes remain the peek fails, so it
does not match, consumes nothing and sets the end-of-stream flag, even
when the single remaining byte is LF. -/
theorem claim_C4 :
    (∀ (b : Byte) (l : List Byte) (e fj : Bool),
      scanEOL listRP ⟨10 :: b :: l, e, fj⟩ = (true, ⟨b :: l, e, fj⟩)) ∧
    (∀ (l : List Byte) (e fj : Bool),
      scanEOL listRP ⟨13 :: 10 :: l, e, fj⟩ = (true, ⟨l, e, fj⟩)) ∧
    (∀ (b0 b1 : Byte) (l : List Byte) (e fj : Bool), b0 ≠ 10 → ¬(b0 = 13 ∧ b1 = 10) →
      scanEOL listRP ⟨b0 :: b1 :: l, e, fj⟩ = (false, ⟨b0 :: b1 :: l, e, fj⟩)) ∧
    (∀ (l : List Byte) (e fj : Bool), l.length < 2 →
      scanEOL listRP ⟨l, e, fj⟩ = (false, ⟨l, true, fj⟩)) :=
  ⟨scanEOL_lf, scanEOL_crlf,
   fun b0 b1 l e fj h0 h1 => scanEOL_other b0 b1 l e fj h0 h1,
   fun l e fj hl => scanEOL_short l hl e fj⟩

/-- C4 counterexample to the claim as stated: at a cursor position
where the next byte is LF but it is the last byte of the stream, the
matcher does not match and consumes nothing (it sets the EOF flag),
contradicting the clause that a next byte LF always matches and
consumes 1 byte. -/
theorem claim_C4_counterexample :
    scanEOL listRP ⟨[10], false, false⟩ = (false, ⟨[10], true, false⟩) := rfl

theorem claim_C4_witness :
    scanEOL listRP ⟨[10, 7], false, false⟩ = (true, ⟨[7], false, false⟩) ∧
    scanEOL listRP ⟨[13, 10, 7], false, false⟩ = (true, ⟨[7], false, false⟩) ∧
    scanEOL listRP ⟨[13, 7], false, false⟩ = (false, ⟨[13, 7], false, false⟩) ∧
    scanEOL listRP ⟨[13], false, false⟩ = (false, ⟨[13], true, false⟩) :=
  ⟨claim_C4.1 7 [] false false, claim_C4.2.1 [7] false false,
   claim_C4.2.2.1 13 7 [] false false (by decide) (by decide),
   claim_C4.2.2.2 [13] false false (by decide)⟩

/-- C5: whenever the lexer reports exhaustion during a NextFrame call
(the EOF flag, clear at entry, is set when the call returns), the call
returns the end-of-stream signal - not a ParseError and not a Frame, so
any partially parsed frame is discarded. -/
theorem claim_C5 (p : StompParser (List Byte)) (_h0 : p.reachedEOF = false)
    (h : ((NextFrame listRP p).2).reachedEOF = true) :
    (NextFrame listRP p).1 = Outcome.eof :=
  (NextFrame_outcome_props p).1 h

theorem claim_C5_witness :
    (mkParser (strBytes "SEND\nkey")).reachedEOF = false ∧
    ((NextFrame listRP (mkParser (strBytes "SEND\nkey"))).2).reachedEOF = true ∧
    (NextFrame listRP (mkParser (strBytes "SEND\nkey"))).1 = Outcome.eof :=
  ⟨rfl, rfl, claim_C5 (mkParser (strBytes "SEND\nkey")) rfl rfl⟩

/-- C6: a stream that is exactly one well-formed frame, whose last byte
is the frame's NUL delimiter, yields that frame on the first call and
the end-of-stream signal (not a ParseError) on the next call. -/
theorem claim_C6 (f : WFrame) (hwf : WF f) :
    outcomes listRP 2 (mkParser (encodeFrame f)) =
      [Outcome.frame (expectedFrame f), Outcome.eof] := by
  have h1 := NextFrame_enc f hwf [] false
  rw [List.append_nil] at h1
  simp only [mkParser]
  rw [show (2 : Nat) = 1 + 1 from rfl, outcomes_succ listRP 1, h1]
  simp only
  rw [outcomes_succ listRP 0, NextFrame_empty false true]
  rfl

theorem claim_C6_witness :
    WF (⟨strBytes "DISCONNECT", false, [], true, []⟩ : WFrame) ∧
    outcomes listRP 2 (mkParser (encodeFrame ⟨strBytes "DISCONNECT", false, [], true, []⟩)) =
      [Outcome.frame ⟨9, [], []⟩, Outcome.eof] :=
  ⟨by decide,
   (claim_C6 ⟨strBytes "DISCONNECT", false, [], true, []⟩ (by decide)).trans rfl⟩

/-- C7: for every well-formed frame, the returned Frame is the expected
one and its headers map sends every key to the value of the last header
line carrying that key (byte-for-byte; absent keys map to nothing). -/
theorem claim_C7 (f : WFrame) (hwf : WF f) :
    (NextFrame listRP (mkParser (encodeFrame f))).1 = Outcome.frame (expectedFrame f) ∧
    ∀ k, lookupHeader k (expectedFrame f).Headers = lastHeaderValue k f.hs := by
  constructor
  · have h1 := NextFrame_enc f hwf [] false
    rw [List.append_nil] at h1
    simp only [mkParser]
    rw [h1]
  · intro k
    exact lookupHeader_expected f.hs k

theorem claim_C7_witness :
    WF (⟨strBytes "SEND", false,
         [⟨strBytes "k", strBytes "1", false⟩, ⟨strBytes "k", strBytes "2", false⟩,
          ⟨strBytes "x", strBytes "y", false⟩], false, []⟩ : WFrame) ∧
    (NextFrame listRP (mkParser (encodeFrame
        ⟨strBytes "SEND", false,
         [⟨strBytes "k", strBytes "1", false⟩, ⟨strBytes "k", strBytes "2", false⟩,
          ⟨strBytes "x", strBytes "y", false⟩], false, []⟩))).1 =
      Outcome.frame (expectedFrame
        ⟨strBytes "SEND", false,
         [⟨strBytes "k", strBytes "1", false⟩, ⟨strBytes "k", strBytes "2", false⟩,
          ⟨strBytes "x", strBytes "y", false⟩], false, []⟩) ∧
    lookupHeader (strBytes "k") (expectedFrame
        ⟨strBytes "SEND", false,
         [⟨strBytes "k", strBytes "1", false⟩, ⟨strBytes "k", strBytes "2", false⟩,
          ⟨strBytes "x", strBytes "y", false⟩], false, []⟩).Headers =
      some (strBytes "2") :=
  ⟨by decide, (claim_C7 _ (by decide)).1,
   ((claim_C7 _ (by decide)).2 (strBytes "k")).trans rfl⟩

/-- C8: for every well-formed frame the returned Body is exactly the
raw byte segment between the end-of-line terminating the header section
and the final NUL (embedded LF and CR included, the NUL excluded), and
every Frame any NextFrame call returns has a body free of NUL bytes. -/
theorem claim_C8 :
    (∀ f, WF f →
      (NextFrame listRP (mkParser (encodeFrame f))).1 = Outcome.frame (expectedFrame f) ∧
      (expectedFrame f).Body = f.body ∧
      encodeFrame f =
        (f.cmd ++ eolBytes f.e0 ++ encHeaders f.hs ++ eolBytes f.eB) ++ (f.body ++ [0])) ∧
    ∀ p fr, (NextFrame listRP p).1 = Outcome.frame fr → (0 : Byte) ∉ fr.Body := by
  constructor
  · intro f hwf
    refine ⟨?_, rfl, by simp [encodeFrame]⟩
    have h1 := NextFrame_enc f hwf [] false
    rw [List.append_nil] at h1
    simp only [mkParser]
    rw [h1]
  · intro p fr h
    exact (NextFrame_outcome_props p).2 fr h

theorem claim_C8_witness :
    WF (⟨strBytes "MESSAGE", false, [], true, [109, 10, 13, 98]⟩ : WFrame) ∧
    (NextFrame listRP (mkParser (encodeFrame
        ⟨strBytes "MESSAGE", false, [], true, [109, 10, 13, 98]⟩))).1 =
      Outcome.frame (expectedFrame ⟨strBytes "MESSAGE", false, [], true, [109, 10, 13, 98]⟩) ∧
    (expectedFrame (⟨strBytes "MESSAGE", false, [], true, [109, 10, 13, 98]⟩ : WFrame)).Body =
      [109, 10, 13, 98] ∧
    (0 : Byte) ∉ (expectedFrame
        (⟨strBytes "MESSAGE", false, [], true, [109, 10, 13, 98]⟩ : WFrame)).Body :=
  ⟨by decide,
   (claim_C8.1 _ (by decide)).1,
   (claim_C8.1 _ (by decide)).2.1,
   claim_C8.2 (mkParser (encodeFrame ⟨strBytes "MESSAGE", false, [], true, [109, 10, 13, 98]⟩))
     (expectedFrame ⟨strBytes "MESSAGE", false, [], true, [109, 10, 13, 98]⟩) rfl⟩

/-- C9: looking up any string that is not one of the 15 verb strings in
the commands map yields the zero command kind 0, a value distinct from
all 15 enumerated CommandType constants (which are the nonzero values
the 15 verbs map to); no error is produced. -/
theorem claim_C9 (l : List Byte) (hl : l ∉ verbStrings) :
    commandsLookup l = 0 ∧ ∀ v ∈ verbStrings, commandsLookup v ≠ 0 := by
  constructor
  · simp only [verbStrings, List.mem_cons, not_or] at hl
    obtain ⟨h1, h2, h3, h4, h5, h6, h7, h8, h9, h10, h11, h12, h13, h14, h15, -⟩ := hl
    simp [commandsLookup, h1, h2, h3, h4, h5, h6, h7, h8, h9, h10, h11, h12, h13, h14, h15]
  · intro v hv
    fin_cases hv <;> decide

theorem claim_C9_witness :
    strBytes "FOO" ∉ verbStrings ∧
    commandsLookup (strBytes "FOO") = 0 ∧
    commandsLookup (strBytes "SEND") ≠ 0 :=
  ⟨by decide, (claim_C9 (strBytes "FOO") (by decide)).1,
   (claim_C9 (strBytes "FOO") (by decide)).2 (strBytes "SEND") (by decide)⟩

/-- C10 (amended): the at-frame-boundary flag of a fresh parser is
false, so a leading blank line is not skipped: for every stream whose
first byte is LF (or whose first bytes are CR LF) and whose remaining
bytes contain a NUL, the first call lexes a Body token at the command
position and returns the ParseError about a missing command; when the
remaining bytes contain no NUL the lexer reaches exhaustion instead and
the call returns the end-of-stream signal, as the counterexample
records. -/
theorem claim_C10 :
    (∀ bs : List Byte, (mkParser bs).frameJustEnded = false) ∧
    (∀ rest : List Byte, (0 : Byte) ∈ rest →
      (nextToken listRP (mkParser (10 :: rest))).1 = TokenType.BODY ∧
      (NextFrame listRP (mkParser (10 :: rest))).1 =
        Outcome.parseError "Frame must begin with a command") ∧
    (∀ rest : List Byte, (0 : Byte) ∈ rest →
      (NextFrame listRP (mkParser (13 :: 10 :: rest))).1 =
        Outcome.parseError "Frame must begin with a command") ∧
    (NextFrame listRP (mkParser [10])).1 = Outcome.eof := by
  refine ⟨fun bs => rfl, fun rest h => ?_, fun rest h => ?_, rfl⟩
  · exact NextFrame_leadingEOL false rest h
  · exact (NextFrame_leadingEOL true rest h).2

/-- C10 counterexample to the claim as stated: the one-byte stream
consisting of a single LF has LF as its first byte, yet the first
NextFrame call returns the end-of-stream signal, not the ParseError
about a missing command (scanEOL's 2-byte peek fails and sets the EOF
flag). -/
theorem claim_C10_counterexample :
    (NextFrame listRP (mkParser [10])).1 = Outcome.eof ∧
    Outcome.eof ≠ Outcome.parseError "Frame must begin with a command" :=
  ⟨rfl, by decide⟩

theorem claim_C10_witness :
    (nextToken listRP (mkParser [10, 97, 0])).1 = TokenType.BODY ∧
    (NextFrame listRP (mkParser [10, 97, 0])).1 =
      Outcome.parseError "Frame must begin with a command" ∧
    (NextFrame listRP (mkParser [13, 10, 97, 0])).1 =
      Outcome.parseError "Frame must begin with a command" :=
  ⟨(claim_C10.2.1 [97, 0] (by decide)).1, (claim_C10.2.1 [97, 0] (by decide)).2,
   claim_C10.2.2.1 [97, 0] (by decide)⟩

/-- C3: whenever a required token kind is missing at a grammar position
while the stream is not exhausted, the assembler returns the ParseError
of that position, and the four positions carry four distinct messages:
the command position (NextFrame's first check), a header key followed
by a token that is not a HeaderValue (the header loop's check, which
NextFrame propagates), the body position (the body stage), and the
delimiter position (the delimiter stage). -/
theorem claim_C3 :
    (∀ (p : StompParser (List Byte)) t1 l1 p1, nextToken listRP p = (t1, l1, p1) →
      t1 ≠ TokenType.COMMAND → p1.reachedEOF = false →
      NextFrame listRP p = (Outcome.parseError "Frame must begin with a command", p1)) ∧
    (∀ (n : Nat) (l : List Byte) (p : StompParser (List Byte)) (acc : Headers),
      (nextToken listRP p).1 ≠ TokenType.HEADER_VALUE →
      ((nextToken listRP p).2.2).reachedEOF = false →
      headerLoop listRP (n + 1) TokenType.HEADER_KEY l p acc =
        (HeaderLoopResult.err "Headers must have values", (nextToken listRP p).2.2)) ∧
    (∀ (p : StompParser (List Byte)) t1 l1 p1 t2 l2 p2 m p3,
      nextToken listRP p = (t1, l1, p1) →
      ¬(t1 ≠ TokenType.COMMAND ∧ p1.reachedEOF = false) →
      nextToken listRP p1 = (t2, l2, p2) →
      headerLoop listRP (listRP.size p1.stream + 1) t2 l2 p2 [] =
        (HeaderLoopResult.err m, p3) →
      NextFrame listRP p = (Outcome.parseError m, p3)) ∧
    (∀ (cmd : Nat) (t : TokenType) (l : List Byte) (hs : Headers)
        (p : StompParser (List Byte)), t ≠ TokenType.BODY → p.reachedEOF = false →
      bodyStage listRP cmd t l hs p = (Outcome.parseError "Frames must contain bodies", p)) ∧
    (∀ (cmd : Nat) (hs : Headers) (body : List Byte) (p : StompParser (List Byte)) t4 l4 p4,
      nextToken listRP p = (t4, l4, p4) →
      t4 ≠ TokenType.DELIMITER → p4.reachedEOF = false →
      delimiterStage listRP cmd hs body p =
        (Outcome.parseError "Frames must end with a null byte", p4)) ∧
    (("Frame must begin with a command" : String) ≠ "Headers must have values" ∧
     ("Frame must begin with a command" : String) ≠ "Frames must contain bodies" ∧
     ("Frame must begin with a command" : String) ≠ "Frames must end with a null byte" ∧
     ("Headers must have values" : String) ≠ "Frames must contain bodies" ∧
     ("Headers must have values" : String) ≠ "Frames must end with a null byte" ∧
     ("Frames must contain bodies" : String) ≠ "Frames must end with a null byte") := by
  refine ⟨?_, ?_, ?_, ?_, ?_, by decide⟩
  · intro p t1 l1 p1 h ht he
    simp only [NextFrame, h]
    rw [if_pos ⟨ht, he⟩]
  · intro n l p acc hne he
    exact headerLoop_hk_err n l p acc ⟨hne, he⟩
  · intro p t1 l1 p1 t2 l2 p2 m p3 h1 hg h2 h3
    simp only [NextFrame, h1]
    rw [if_neg hg]
    simp only [h2, h3]
  · intro cmd t l hs p ht he
    simp only [bodyStage]
    rw [if_pos ⟨ht, he⟩]
  · intro cmd hs body p t4 l4 p4 h ht he
    simp only [delimiterStage, h]
    rw [if_pos ⟨ht, he⟩]

theorem claim_C3_witness :
    NextFrame listRP (mkParser (strBytes "xyz\nab")) =
      (Outcome.parseError "Frame must begin with a command", ⟨strBytes "ab", false, false⟩) ∧
    headerLoop listRP 9 TokenType.HEADER_KEY (strBytes "k")
        ⟨[58, 97, 58, 98, 10, 88, 88], false, false⟩ [] =
      (HeaderLoopResult.err "Headers must have values", ⟨[58, 98, 10, 88, 88], false, false⟩) ∧
    NextFrame listRP (mkParser (strBytes "SEND\nk:a:b\nXX")) =
      (Outcome.parseError "Headers must have values", ⟨[58, 98, 10, 88, 88], false, false⟩) ∧
    bodyStage listRP 1 TokenType.INVALID_TOKEN [] [] (mkParser (strBytes "q")) =
      (Outcome.parseError "Frames must contain bodies", mkParser (strBytes "q")) ∧
    delimiterStage listRP 1 [] [] (mkParser (strBytes "ab:cd")) =
      (Outcome.parseError "Frames must end with a null byte", ⟨strBytes ":cd", false, false⟩) :=
  ⟨claim_C3.1 (mkParser (strBytes "xyz\nab")) TokenType.INVALID_TOKEN (strBytes "xyz")
     ⟨strBytes "ab", false, false⟩ rfl (by decide) rfl,
   claim_C3.2.1 8 (strBytes "k") ⟨[58, 97, 58, 98, 10, 88, 88], false, false⟩ []
     (by decide) rfl,
   claim_C3.2.2.1 (mkParser (strBytes "SEND\nk:a:b\nXX")) TokenType.COMMAND
     (strBytes "SEND") ⟨strBytes "k:a:b\nXX", false, false⟩ TokenType.HEADER_KEY
     [107] ⟨[58, 97, 58, 98, 10, 88, 88], false, false⟩ "Headers must have values"
     ⟨[58, 98, 10, 88, 88], false, false⟩ rfl (by decide) rfl rfl,
   claim_C3.2.2.2.1 1 TokenType.INVALID_TOKEN [] [] (mkParser (strBytes "q"))
     (by decide) rfl,
   claim_C3.2.2.2.2.1 1 [] [] (mkParser (strBytes "ab:cd")) TokenType.HEADER_KEY
     (strBytes "ab") ⟨strBytes ":cd", false, false⟩ rfl (by decide) rfl⟩

/-! ## C1: the buffered chunked source refines the plain list source -/

theorem bufFill_sticky (sched : Nat → Nat) (m k : Nat) (st : BufState)
    (h : st.errSticky = true) : bufFill sched m k st = st := by
  cases m with
  | zero => rfl
  | succ n => simp [bufFill, h]

theorem bufFill_props (sched : Nat → Nat) (hsched : ∀ i, 1 ≤ sched i) (fuel k : Nat)
    (st : BufState) (hinv : bufInv st) (hfuel : st.src.length + 1 ≤ fuel) :
    flatBuf (bufFill sched fuel k st) = flatBuf st ∧
    bufInv (bufFill sched fuel k st) ∧
    (k ≤ (bufFill sched fuel k st).buf.length ∨ (bufFill sched fuel k st).errSticky = true) := by
  induction fuel generalizing st with
  | zero => omega
  | succ m ih =>
    by_cases hdone : k ≤ st.buf.length ∨ st.errSticky = true
    · rw [show bufFill sched (m + 1) k st = st from by simp [bufFill, hdone]]
      exact ⟨rfl, hinv, hdone⟩
    · have hstep : bufFill sched (m + 1) k st =
          bufFill sched m k
            { st with
              buf := st.buf ++ (mockRead sched st).1
              src := ((mockRead sched st).2).src
              readNo := ((mockRead sched st).2).readNo
              errSticky := ((mockRead sched st).2).errSticky } := by
        simp only [bufFill]
        rw [if_neg hdone]
      cases hsrc : st.src with
      | nil =>
        have hmr : (mockRead sched st).2.src = [] ∧ (mockRead sched st).2.errSticky = true ∧
            (mockRead sched st).1 = [] := by
          simp [mockRead, hsrc]
        rw [hstep, bufFill_sticky sched m k _ (by simp [hmr.2.1])]
        refine ⟨?_, ?_, Or.inr (by simp [hmr.2.1])⟩
        · simp [flatBuf, hsrc, hmr.1, hmr.2.2]
        · intro _; simp [hmr.1]
      | cons b t =>
        have hread : 1 ≤ min (sched st.readNo) st.src.length := by
          have := hsched st.readNo
          simp [hsrc]
          omega
        have hflat : flatBuf { st with
              buf := st.buf ++ (mockRead sched st).1
              src := ((mockRead sched st).2).src
              readNo := ((mockRead sched st).2).readNo
              errSticky := ((mockRead sched st).2).errSticky } = flatBuf st := by
          simp [flatBuf, mockRead, List.append_assoc]
        have hinv' : bufInv { st with
              buf := st.buf ++ (mockRead sched st).1
              src := ((mockRead sched st).2).src
              readNo := ((mockRead sched st).2).readNo
              errSticky := ((mockRead sched st).2).errSticky } := by
          intro he
          simp only [mockRead] at he ⊢
          simp only [Bool.or_eq_true] at he
          rcases he with he | he
          · rw [hinv he]
            simp
          · simpa [List.isEmpty_iff] using he
        have hlen : ((mockRead sched st).2).src.length + 1 ≤ m := by
          simp only [mockRead, List.length_drop]
          rw [hsrc] at hfuel ⊢
          simp only [List.length_cons] at hfuel ⊢
          rw [hsrc] at hread
          simp only [List.length_cons] at hread
          omega
        rw [hstep]
        obtain ⟨hA, hB, hC⟩ := ih _ hinv' hlen
        exact ⟨hA.trans hflat, hB, hC⟩

theorem bufPeek1_sim (sched : Nat → Nat) (hsched : ∀ i, 1 ≤ sched i) (st : BufState)
    (hinv : bufInv st) :
    (bufPeek1 sched st).1 = (flatBuf st).head? ∧
    flatBuf (bufPeek1 sched st).2 = flatBuf st ∧ bufInv (bufPeek1 sched st).2 := by
  obtain ⟨hA, hB, hC⟩ := bufFill_props sched hsched (st.src.length + 1) 1 st hinv (by omega)
  simp only [bufPeek1]
  cases hbuf : (bufFill sched (st.src.length + 1) 1 st).buf with
  | nil =>
    rcases hC with hC | hC
    · rw [hbuf] at hC; simp at hC
    · have hsrc : (bufFill sched (st.src.length + 1) 1 st).src = [] := hB hC
      have : flatBuf st = [] := by rw [← hA, flatBuf, hbuf, hsrc]; rfl
      simp [this, hA, hB]
  | cons b r =>
    have : flatBuf st = b :: (r ++ (bufFill sched (st.src.length + 1) 1 st).src) := by
      rw [← hA, flatBuf, hbuf]; rfl
    simp [this, hA, hB]

theorem bufPeek2_sim (sched : Nat → Nat) (hsched : ∀ i, 1 ≤ sched i) (st : BufState)
    (hinv : bufInv st) :
    (bufPeek2 sched st).1 =
      (match flatBuf st with
       | a :: b :: _ => some (a, b)
       | _ => Option.none) ∧
    flatBuf (bufPeek2 sched st).2 = flatBuf st ∧ bufInv (bufPeek2 sched st).2 := by
  obtain ⟨hA, hB, hC⟩ := bufFill_props sched hsched (st.src.length + 1) 2 st hinv (by omega)
  simp only [bufPeek2]
  cases hbuf : (bufFill sched (st.src.length + 1) 2 st).buf with
  | nil =>
    rcases hC with hC | hC
    · rw [hbuf] at hC; simp at hC
    · have hsrc : (bufFill sched (st.src.length + 1) 2 st).src = [] := hB hC
      have : flatBuf st = [] := by rw [← hA, flatBuf, hbuf, hsrc]; rfl
      simp [this, hA, hB]
  | cons a r =>
    cases hr : r with
    | nil =>
      rcases hC with hC | hC
      · rw [hbuf, hr] at hC; simp at hC
      · have hsrc : (bufFill sched (st.src.length + 1) 2 st).src = [] := hB hC
        have : flatBuf st = [a] := by rw [← hA, flatBuf, hbuf, hr, hsrc]; rfl
        simp [this, hA, hB]
    | cons b r' =>
      have : flatBuf st =
          a :: b :: (r' ++ (bufFill sched (st.src.length + 1) 2 st).src) := by
        rw [← hA, flatBuf, hbuf, hr]; rfl
      simp [this, hA, hB]

theorem bufReadByte_sim (sched : Nat → Nat) (hsched : ∀ i, 1 ≤ sched i) (st : BufState)
    (hinv : bufInv st) :
    (bufReadByte sched st).1 = (flatBuf st).head? ∧
    flatBuf (bufReadByte sched st).2 = (flatBuf st).tail ∧
    bufInv (bufReadByte sched st).2 := by
  obtain ⟨hA, hB, hC⟩ := bufFill_props sched hsched (st.src.length + 1) 1 st hinv (by omega)
  simp only [bufReadByte]
  cases hbuf : (bufFill sched (st.src.length + 1) 1 st).buf with
  | nil =>
    rcases hC with hC | hC
    · rw [hbuf] at hC; simp at hC
    · have hsrc : (bufFill sched (st.src.length + 1) 1 st).src = [] := hB hC
      have : flatBuf st = [] := by rw [← hA, flatBuf, hbuf, hsrc]; rfl
      simp [this, hA, hB]
  | cons b r =>
    have hfl : flatBuf st = b :: (r ++ (bufFill sched (st.src.length + 1) 1 st).src) := by
      rw [← hA, flatBuf, hbuf]; rfl
    refine ⟨by simp [hfl], ?_, ?_⟩
    · rw [hfl]
      simp [flatBuf]
    · intro he
      exact hB (by simpa using he)

theorem listRP_peek1 (l : List Byte) : listRP.peek1 l = (l.head?, l) := by
  cases l <;> rfl

theorem listRP_peek2_match (l : List Byte) :
    listRP.peek2 l =
      ((match l with
        | a :: b :: _ => some (a, b)
        | _ => Option.none), l) := by
  match l with
  | [] => rfl
  | [a] => rfl
  | a :: b :: t => rfl

theorem listRP_readByte (l : List Byte) : listRP.readByte l = (l.head?, l.tail) := by
  cases l <;> rfl

theorem bufRP_size_flat (sched : Nat → Nat) (st : BufState) :
    (bufRP sched).size st = (flatBuf st).length := by
  simp [bufRP, flatBuf]

section Simulation

theorem consume1_sim (sched : Nat → Nat) (hsched : ∀ i, 1 ≤ sched i)
    (q : StompParser BufState) (p : StompParser (List Byte)) (hR : Rel q p) :
    Rel (consume1 (bufRP sched) q) (consume1 listRP p) := by
  obtain ⟨hs, hinv, he, hf⟩ := hR
  obtain ⟨h1, h2, h3⟩ := bufReadByte_sim sched hsched q.stream hinv
  refine ⟨?_, h3, he, hf⟩
  show (listRP.readByte p.stream).2 = flatBuf (bufReadByte sched q.stream).2
  rw [listRP_readByte, h2, hs]

theorem scanEOL_sim (sched : Nat → Nat) (hsched : ∀ i, 1 ≤ sched i)
    (q : StompParser BufState) (p : StompParser (List Byte)) (hR : Rel q p) :
    (scanEOL (bufRP sched) q).1 = (scanEOL listRP p).1 ∧
    Rel (scanEOL (bufRP sched) q).2 (scanEOL listRP p).2 := by
  obtain ⟨hs, hinv, he, hf⟩ := hR
  obtain ⟨hP1, hP2, hP3⟩ := bufPeek2_sim sched hsched q.stream hinv
  simp only [scanEOL]
  rw [show (bufRP sched).peek2 q.stream = bufPeek2 sched q.stream from rfl]
  rw [listRP_peek2_match p.stream, hs]
  rcases hq : bufPeek2 sched q.stream with ⟨r2, st'⟩
  rw [hq] at hP1 hP2 hP3
  simp only at hP1 hP2 hP3
  cases hfb : flatBuf q.stream with
  | nil =>
    rw [hfb] at hP1
    subst hP1
    dsimp only
    exact ⟨by trivial, by rw [hP2, hfb], hP3, by trivial, hf⟩
  | cons a t =>
    cases t with
    | nil =>
      rw [hfb] at hP1
      subst hP1
      dsimp only
      exact ⟨by trivial, by rw [hP2, hfb], hP3, by trivial, hf⟩
    | cons b t' =>
      rw [hfb] at hP1
      subst hP1
      have hmid : Rel { q with stream := st' }
          { p with stream := a :: b :: t' } := ⟨by rw [hP2, hfb], hP3, he, hf⟩
      dsimp only
      split_ifs with h10 h1310
      · exact ⟨rfl, consume1_sim sched hsched _ _ hmid⟩
      · exact ⟨rfl, consume1_sim sched hsched _ _ (consume1_sim sched hsched _ _ hmid)⟩
      · exact ⟨rfl, hmid⟩

theorem scanHeaderSeparator_sim (sched : Nat → Nat) (hsched : ∀ i, 1 ≤ sched i)
    (q : StompParser BufState) (p : StompParser (List Byte)) (hR : Rel q p) :
    (scanHeaderSeparator (bufRP sched) q).1 = (scanHeaderSeparator listRP p).1 ∧
    Rel (scanHeaderSeparator (bufRP sched) q).2 (scanHeaderSeparator listRP p).2 := by
  obtain ⟨hs, hinv, he, hf⟩ := hR
  obtain ⟨hP1, hP2, hP3⟩ := bufPeek1_sim sched hsched q.stream hinv
  simp only [scanHeaderSeparator]
  rw [show (bufRP sched).peek1 q.stream = bufPeek1 sched q.stream from rfl]
  rw [listRP_peek1, hs]
  rcases hq : bufPeek1 sched q.stream with ⟨r1, st'⟩
  rw [hq] at hP1 hP2 hP3
  simp only at hP1 hP2 hP3
  cases hfb : flatBuf q.stream with
  | nil =>
    rw [hfb] at hP1
    subst hP1
    simp only [List.head?_nil, List.head?_cons]
    exact ⟨by trivial, by rw [hP2, hfb], hP3, by trivial, hf⟩
  | cons a t =>
    rw [hfb] at hP1
    simp only [List.head?_cons] at hP1
    subst hP1
    simp only [List.head?_nil, List.head?_cons]
    exact ⟨by trivial, by rw [hP2, hfb], hP3, he, hf⟩

theorem skipEOLs_sim (sched : Nat → Nat) (hsched : ∀ i, 1 ≤ sched i) (n : Nat)
    (q : StompParser BufState) (p : StompParser (List Byte)) (hR : Rel q p) :
    Rel (skipEOLs (bufRP sched) n q) (skipEOLs listRP n p) := by
  induction n generalizing q p with
  | zero => exact hR
  | succ m ih =>
    obtain ⟨hE, hRel⟩ := scanEOL_sim sched hsched q p hR
    simp only [skipEOLs]
    rw [hE]
    split_ifs with hfound
    · exact ih _ _ hRel
    · exact hRel

theorem scanTillDelimiter_sim (sched : Nat → Nat) (hsched : ∀ i, 1 ≤ sched i) (n : Nat)
    (q : StompParser BufState) (p : StompParser (List Byte)) (hR : Rel q p) :
    (scanTillDelimiter (bufRP sched) n q).1 = (scanTillDelimiter listRP n p).1 ∧
    Rel (scanTillDelimiter (bufRP sched) n q).2 (scanTillDelimiter listRP n p).2 := by
  induction n generalizing q p with
  | zero => exact ⟨rfl, hR⟩
  | succ m ih =>
    obtain ⟨hs, hinv, he, hf⟩ := hR
    obtain ⟨hP1, hP2, hP3⟩ := bufPeek1_sim sched hsched q.stream hinv
    simp only [scanTillDelimiter]
    rw [show (bufRP sched).peek1 q.stream = bufPeek1 sched q.stream from rfl]
    rw [listRP_peek1, hs]
    rcases hq : bufPeek1 sched q.stream with ⟨r1, st'⟩
    rw [hq] at hP1 hP2 hP3
    simp only at hP1 hP2 hP3
    cases hfb : flatBuf q.stream with
    | nil =>
      rw [hfb] at hP1
      subst hP1
      simp only [List.head?_nil, List.head?_cons]
      exact ⟨by trivial, by rw [hP2, hfb], hP3, by trivial, hf⟩
    | cons a t =>
      rw [hfb] at hP1
      simp only [List.head?_cons] at hP1
      subst hP1
      simp only [List.head?_nil, List.head?_cons]
      split_ifs with ha
      · exact ⟨by trivial, by rw [hP2, hfb], hP3, he, hf⟩
      · obtain ⟨hB1, hB2, hB3⟩ := bufReadByte_sim sched hsched st' hP3
        rw [show (bufRP sched).readByte st' = bufReadByte sched st' from rfl]
        rw [listRP_readByte]
        rcases hrb : bufReadByte sched st' with ⟨rb, st2⟩
        rw [hrb] at hB1 hB2 hB3
        simp only at hB1 hB2 hB3
        rw [hP2, hfb] at hB1 hB2
        simp only [List.head?_cons, List.tail_cons] at hB1 hB2
        subst hB1
        simp only [List.head?_cons, List.tail_cons]
        have hRel2 : Rel { q with stream := st2 } { p with stream := t } :=
          ⟨hB2.symm, hB3, he, hf⟩
        obtain ⟨hI1, hI2⟩ := ih _ _ hRel2
        rw [hI1]
        exact ⟨rfl, hI2⟩

set_option maxHeartbeats 1600000 in
theorem scanTillTerminator_sim (sched : Nat → Nat) (hsched : ∀ i, 1 ≤ sched i) (n : Nat)
    (q : StompParser BufState) (p : StompParser (List Byte)) (hR : Rel q p) :
    (scanTillTerminator (bufRP sched) n q).1 = (scanTillTerminator listRP n p).1 ∧
    (scanTillTerminator (bufRP sched) n q).2.1 = (scanTillTerminator listRP n p).2.1 ∧
    Rel (scanTillTerminator (bufRP sched) n q).2.2 (scanTillTerminator listRP n p).2.2 := by
  induction n generalizing q p with
  | zero => exact ⟨by trivial, by trivial, hR⟩
  | succ m ih =>
    have heq := hR.2.2.1
    simp only [scanTillTerminator]
    rw [heq]
    by_cases heof : q.reachedEOF = true
    · simp only [if_pos heof]
      exact ⟨by trivial, by trivial, hR⟩
    · simp only [if_neg heof]
      obtain ⟨hE, hRel1⟩ := scanEOL_sim sched hsched q p hR
      by_cases hfound : (scanEOL listRP p).1 = true
      · simp only [hE, if_pos hfound]
        exact ⟨by trivial, by trivial, hRel1⟩
      · simp only [hE, if_neg hfound]
        obtain ⟨hS, hRel2⟩ := scanHeaderSeparator_sim sched hsched _ _ hRel1
        by_cases hsep : (scanHeaderSeparator listRP (scanEOL listRP p).2).1 = true
        · simp only [hS, if_pos hsep]
          exact ⟨by trivial, by trivial, hRel2⟩
        · simp only [hS, if_neg hsep]
          set Q := (scanHeaderSeparator (bufRP sched) (scanEOL (bufRP sched) q).2).2 with hQdef
          set P := (scanHeaderSeparator listRP (scanEOL listRP p).2).2 with hPdef
          obtain ⟨hs2, hinv2, he2, hf2⟩ := hRel2
          obtain ⟨hB1, hB2, hB3⟩ := bufReadByte_sim sched hsched Q.stream hinv2
          rw [show (bufRP sched).readByte Q.stream = bufReadByte sched Q.stream from rfl]
          rw [listRP_readByte, hs2]
          rcases hrb : bufReadByte sched Q.stream with ⟨rb, st2⟩
          rw [hrb] at hB1 hB2 hB3
          simp only at hB1 hB2 hB3
          subst hB1
          cases hfb : flatBuf Q.stream with
          | nil =>
            simp only [List.head?_nil]
            exact ⟨by trivial, by trivial, by rw [hB2, hfb], hB3, by trivial, hf2⟩
          | cons a t =>
            rw [hfb] at hB2
            simp only [List.head?_cons, List.tail_cons] at hB2 ⊢
            have hRel3 : Rel { Q with stream := st2 } { P with stream := t } :=
              ⟨hB2.symm, hB3, he2, hf2⟩
            obtain ⟨hI1, hI2, hI3⟩ := ih _ _ hRel3
            rw [hI1, hI2]
            exact ⟨by trivial, by trivial, hI3⟩

theorem size_eq_of_flat (sched : Nat → Nat) {qs : BufState} {ps : List Byte}
    (h : ps = flatBuf qs) : (bufRP sched).size qs = listRP.size ps := by
  rw [bufRP_size_flat, h, listRP_size]

set_option maxHeartbeats 1600000 in
theorem nextTokenCore_sim (sched : Nat → Nat) (hsched : ∀ i, 1 ≤ sched i)
    (q : StompParser BufState) (p : StompParser (List Byte)) (hR : Rel q p) :
    (nextTokenCore (bufRP sched) q).1 = (nextTokenCore listRP p).1 ∧
    (nextTokenCore (bufRP sched) q).2.1 = (nextTokenCore listRP p).2.1 ∧
    Rel (nextTokenCore (bufRP sched) q).2.2 (nextTokenCore listRP p).2.2 := by
  obtain ⟨hs, hinv, he, hf⟩ := hR
  obtain ⟨hP1, hP2, hP3⟩ := bufPeek1_sim sched hsched q.stream hinv
  simp only [nextTokenCore]
  rw [show (bufRP sched).peek1 q.stream = bufPeek1 sched q.stream from rfl]
  rw [listRP_peek1, hs]
  rcases hq : bufPeek1 sched q.stream with ⟨r1, st'⟩
  rw [hq] at hP1 hP2 hP3
  simp only at hP1 hP2 hP3
  cases hfb : flatBuf q.stream with
  | nil =>
    rw [hfb] at hP1
    subst hP1
    simp only [List.head?_nil]
    exact ⟨by trivial, by trivial, by rw [hP2, hfb], hP3, by trivial, hf⟩
  | cons c t =>
    rw [hfb] at hP1
    simp only [List.head?_cons] at hP1
    subst hP1
    simp only [List.head?_cons]
    have hmid : Rel { q with stream := st' } { p with stream := c :: t } :=
      ⟨by rw [hP2, hfb], hP3, he, hf⟩
    by_cases hc0 : c = 0
    · simp only [if_pos hc0]
      have hc := consume1_sim sched hsched _ _ hmid
      exact ⟨by trivial, by trivial, hc.1, hc.2.1, hc.2.2.1, by trivial⟩
    · simp only [if_neg hc0]
      by_cases hcr : c = 13 ∨ c = 10
      · simp only [if_pos hcr]
        obtain ⟨hE, hRel1⟩ := scanEOL_sim sched hsched _ _ hmid
        by_cases hfound : (scanEOL listRP { p with stream := c :: t }).1 = true
        · simp only [hE, if_pos hfound]
          rw [size_eq_of_flat sched hRel1.1]
          obtain ⟨hD1, hD2⟩ := scanTillDelimiter_sim sched hsched
            (listRP.size ((scanEOL listRP { p with stream := c :: t }).2).stream + 1)
            _ _ hRel1
          rw [hD1]
          exact ⟨by trivial, by trivial, hD2⟩
        · simp only [hE, if_neg hfound]
          exact ⟨by trivial, by trivial, hRel1⟩
      · simp only [if_neg hcr]
        by_cases hc58 : c = 58
        · simp only [if_pos hc58]
          have hcons := consume1_sim sched hsched _ _ hmid
          rw [size_eq_of_flat sched hcons.1]
          obtain ⟨hT1, hT2, hT3⟩ := scanTillTerminator_sim sched hsched
            (listRP.size ((consume1 listRP { p with stream := c :: t }).stream) + 1)
            _ _ hcons
          by_cases hterm : (scanTillTerminator listRP
              (listRP.size ((consume1 listRP { p with stream := c :: t }).stream) + 1)
              (consume1 listRP { p with stream := c :: t })).2.1 = TerminatorType.EOL
          · simp only [hT1, hT2, if_pos hterm]
            exact ⟨by trivial, by trivial, hT3⟩
          · simp only [hT1, hT2, if_neg hterm]
            exact ⟨by trivial, by trivial, hT3⟩
        · simp only [if_neg hc58]
          rw [size_eq_of_flat sched (show (c :: t : List Byte) = flatBuf st' from by
            rw [hP2, hfb])]
          obtain ⟨hT1, hT2, hT3⟩ := scanTillTerminator_sim sched hsched
            (listRP.size (c :: t) + 1) { q with stream := st' } { p with stream := c :: t }
            hmid
          by_cases hcmd : isCommand (scanTillTerminator listRP (listRP.size (c :: t) + 1)
              { p with stream := c :: t }).1 = true ∧
              (scanTillTerminator listRP (listRP.size (c :: t) + 1)
              { p with stream := c :: t }).2.1 = TerminatorType.EOL
          · simp only [hT1, hT2, if_pos hcmd]
            exact ⟨by trivial, by trivial, hT3⟩
          · simp only [hT1, hT2, if_neg hcmd]
            by_cases hsep : (scanTillTerminator listRP (listRP.size (c :: t) + 1)
                { p with stream := c :: t }).2.1 = TerminatorType.HEADER_SEPARATOR
            · simp only [if_pos hsep]
              exact ⟨by trivial, by trivial, hT3⟩
            · simp only [if_neg hsep]
              exact ⟨by trivial, by trivial, hT3⟩

set_option maxHeartbeats 2000000 in
theorem nextToken_sim (sched : Nat → Nat) (hsched : ∀ i, 1 ≤ sched i)
    (q : StompParser BufState) (p : StompParser (List Byte)) (hR : Rel q p) :
    (nextToken (bufRP sched) q).1 = (nextToken listRP p).1 ∧
    (nextToken (bufRP sched) q).2.1 = (nextToken listRP p).2.1 ∧
    Rel (nextToken (bufRP sched) q).2.2 (nextToken listRP p).2.2 := by
  have hf := hR.2.2.2
  simp only [nextToken]
  rw [hf]
  by_cases hfj : q.frameJustEnded = true
  · simp only [if_pos hfj]
    rw [size_eq_of_flat sched hR.1]
    have hskip := skipEOLs_sim sched hsched (listRP.size p.stream + 1) q p hR
    have hR2 : Rel { skipEOLs (bufRP sched) (listRP.size p.stream + 1) q with
        frameJustEnded := false }
        { skipEOLs listRP (listRP.size p.stream + 1) p with frameJustEnded := false } :=
      ⟨hskip.1, hskip.2.1, hskip.2.2.1, rfl⟩
    exact nextTokenCore_sim sched hsched _ _ hR2
  · simp only [if_neg hfj]
    exact nextTokenCore_sim sched hsched q p hR

set_option maxHeartbeats 2000000 in
theorem headerLoop_sim (sched : Nat → Nat) (hsched : ∀ i, 1 ≤ sched i) (n : Nat)
    (t : TokenType) (l : List Byte) (q : StompParser BufState) (p : StompParser (List Byte))
    (acc : Headers) (hR : Rel q p) :
    (headerLoop (bufRP sched) n t l q acc).1 = (headerLoop listRP n t l p acc).1 ∧
    Rel (headerLoop (bufRP sched) n t l q acc).2 (headerLoop listRP n t l p acc).2 := by
  induction n generalizing t l q p acc with
  | zero => exact ⟨by trivial, hR⟩
  | succ m ih =>
    by_cases ht : t = TokenType.HEADER_KEY
    · simp only [headerLoop, if_pos ht]
      obtain ⟨hN1, hN2, hN3⟩ := nextToken_sim sched hsched q p hR
      have hEOF : ((nextToken (bufRP sched) q).2.2).reachedEOF =
          ((nextToken listRP p).2.2).reachedEOF := hN3.2.2.1.symm
      by_cases hg : (nextToken listRP p).1 ≠ TokenType.HEADER_VALUE ∧
          ((nextToken listRP p).2.2).reachedEOF = false
      · simp only [hN1, hEOF, if_pos hg]
        exact ⟨by trivial, hN3⟩
      · simp only [hN1, hEOF, if_neg hg]
        obtain ⟨hM1, hM2, hM3⟩ := nextToken_sim sched hsched _ _ hN3
        simp only [hN2, hM1, hM2]
        exact ih _ _ _ _ _ hM3
    · simp only [headerLoop, if_neg ht]
      exact ⟨by trivial, hR⟩

set_option maxHeartbeats 2000000 in
theorem delimiterStage_sim (sched : Nat → Nat) (hsched : ∀ i, 1 ≤ sched i)
    (cmd : Nat) (hs : Headers) (body : List Byte)
    (q : StompParser BufState) (p : StompParser (List Byte)) (hR : Rel q p) :
    (delimiterStage (bufRP sched) cmd hs body q).1 = (delimiterStage listRP cmd hs body p).1 ∧
    Rel (delimiterStage (bufRP sched) cmd hs body q).2
      (delimiterStage listRP cmd hs body p).2 := by
  obtain ⟨hN1, hN2, hN3⟩ := nextToken_sim sched hsched q p hR
  have hEOF : ((nextToken (bufRP sched) q).2.2).reachedEOF =
      ((nextToken listRP p).2.2).reachedEOF := hN3.2.2.1.symm
  simp only [delimiterStage]
  by_cases hg : (nextToken listRP p).1 ≠ TokenType.DELIMITER ∧
      ((nextToken listRP p).2.2).reachedEOF = false
  · simp only [hN1, hEOF, if_pos hg]
    exact ⟨by trivial, hN3⟩
  · simp only [hN1, hEOF, if_neg hg]
    exact ⟨by trivial, hN3⟩

set_option maxHeartbeats 2000000 in
theorem bodyStage_sim (sched : Nat → Nat) (hsched : ∀ i, 1 ≤ sched i)
    (cmd : Nat) (t : TokenType) (l : List Byte) (hs : Headers)
    (q : StompParser BufState) (p : StompParser (List Byte)) (hR : Rel q p) :
    (bodyStage (bufRP sched) cmd t l hs q).1 = (bodyStage listRP cmd t l hs p).1 ∧
    Rel (bodyStage (bufRP sched) cmd t l hs q).2 (bodyStage listRP cmd t l hs p).2 := by
  have he := hR.2.2.1
  simp only [bodyStage, he]
  by_cases hg : t ≠ TokenType.BODY ∧ q.reachedEOF = false
  · simp only [if_pos hg]
    exact ⟨by trivial, hR⟩
  · simp only [if_neg hg]
    by_cases heof : q.reachedEOF = true
    · simp only [if_pos heof]
      exact ⟨by trivial, hR⟩
    · simp only [if_neg heof]
      exact delimiterStage_sim sched hsched cmd hs l q p hR

theorem NextFrame_eq {σ : Type} (S : ReadPeeker σ) (p : StompParser σ) :
    NextFrame S p =
      (if (nextToken S p).1 ≠ TokenType.COMMAND ∧
          ((nextToken S p).2.2).reachedEOF = false then
        (Outcome.parseError "Frame must begin with a command", (nextToken S p).2.2)
       else
        match (headerLoop S (S.size ((nextToken S p).2.2).stream + 1)
            (nextToken S ((nextToken S p).2.2)).1
            (nextToken S ((nextToken S p).2.2)).2.1
            (nextToken S ((nextToken S p).2.2)).2.2 []).1 with
        | HeaderLoopResult.err m =>
          (Outcome.parseError m,
           (headerLoop S (S.size ((nextToken S p).2.2).stream + 1)
            (nextToken S ((nextToken S p).2.2)).1
            (nextToken S ((nextToken S p).2.2)).2.1
            (nextToken S ((nextToken S p).2.2)).2.2 []).2)
        | HeaderLoopResult.exit t l hs =>
          bodyStage S (commandsLookup (nextToken S p).2.1) t l hs
           (headerLoop S (S.size ((nextToken S p).2.2).stream + 1)
            (nextToken S ((nextToken S p).2.2)).1
            (nextToken S ((nextToken S p).2.2)).2.1
            (nextToken S ((nextToken S p).2.2)).2.2 []).2) := by
  simp only [NextFrame]

set_option maxHeartbeats 1600000 in
theorem NextFrame_sim (sched : Nat → Nat) (hsched : ∀ i, 1 ≤ sched i)
    (q : StompParser BufState) (p : StompParser (List Byte)) (hR : Rel q p) :
    (NextFrame (bufRP sched) q).1 = (NextFrame listRP p).1 ∧
    Rel (NextFrame (bufRP sched) q).2 (NextFrame listRP p).2 := by
  obtain ⟨hN1, hN2, hN3⟩ := nextToken_sim sched hsched q p hR
  rw [NextFrame_eq (bufRP sched) q, NextFrame_eq listRP p]
  rcases hA : nextToken listRP p with ⟨t1, l1, p1⟩
  rcases hB : nextToken (bufRP sched) q with ⟨t1x, l1x, q1⟩
  rw [hA, hB] at hN1 hN2 hN3
  simp only at hN1 hN2 hN3
  subst t1x
  subst l1x
  have hEOF : p1.reachedEOF = q1.reachedEOF := hN3.2.2.1
  by_cases hg : t1 ≠ TokenType.COMMAND ∧ p1.reachedEOF = false
  · rw [if_pos hg, if_pos ⟨hg.1, by rw [← hEOF]; exact hg.2⟩]
    exact ⟨rfl, hN3⟩
  · rw [if_neg hg, if_neg (fun hc => hg ⟨hc.1, by rw [hEOF]; exact hc.2⟩)]
    obtain ⟨hM1, hM2, hM3⟩ := nextToken_sim sched hsched q1 p1 hN3
    rcases hC : nextToken listRP p1 with ⟨t2, l2, p2⟩
    rcases hD : nextToken (bufRP sched) q1 with ⟨t2x, l2x, q2⟩
    rw [hC, hD] at hM1 hM2 hM3
    simp only at hM1 hM2 hM3
    subst t2x
    subst l2x
    rw [size_eq_of_flat sched hN3.1]
    obtain ⟨hH1, hH2⟩ := headerLoop_sim sched hsched (listRP.size p1.stream + 1)
      t2 l2 q2 p2 [] hM3
    rcases hE : headerLoop listRP (listRP.size p1.stream + 1) t2 l2 p2 [] with ⟨r, p3⟩
    rcases hF : headerLoop (bufRP sched) (listRP.size p1.stream + 1) t2 l2 q2 [] with ⟨rx, q3⟩
    rw [hE, hF] at hH1 hH2
    simp only at hH1 hH2
    subst rx
    cases r with
    | err m => exact ⟨rfl, hH2⟩
    | exit t l hsx => exact bodyStage_sim sched hsched (commandsLookup l1) t l hsx q3 p3 hH2

set_option maxHeartbeats 2000000 in
theorem outcomes_sim (sched : Nat → Nat) (hsched : ∀ i, 1 ≤ sched i) (n : Nat)
    (q : StompParser BufState) (p : StompParser (List Byte)) (hR : Rel q p) :
    outcomes (bufRP sched) n q = outcomes listRP n p := by
  induction n generalizing q p with
  | zero => rfl
  | succ m ih =>
    obtain ⟨hO, hRel⟩ := NextFrame_sim sched hsched q p hR
    rw [outcomes_succ, outcomes_succ, hO, ih _ _ hRel]

end Simulation

theorem cycleSched_pos (i : Nat) : 1 ≤ cycleSched i := by
  have h : i % 6 = 0 ∨ i % 6 = 1 ∨ i % 6 = 2 ∨ i % 6 = 3 ∨ i % 6 = 4 ∨ i % 6 = 5 := by omega
  rcases h with h | h | h | h | h | h <;> simp [cycleSched, h, READ_SIZES_BYTES]

theorem mkBufParser_rel (bs : List Byte) : Rel (mkBufParser bs) (mkParser bs) := by
  refine ⟨?_, ?_, rfl, rfl⟩
  · simp [mkBufParser, mkParser, flatBuf]
  · intro h
    simp [mkBufParser] at h

/-- C1: for every byte sequence and every number of calls, the
sequence of NextFrame outcomes (Frames, ParseErrors, end-of-stream
signals) over a bufio-buffered source whose transport delivers the
bytes in reads of sizes cycling through 1, 8, 32, 12, 5, 2 is
identical to the sequence over the same buffered source whose
transport delivers all the bytes in one unchunked read. -/
theorem claim_C1 (bs : List Byte) (n : Nat) :
    outcomes (bufRP cycleSched) n (mkBufParser bs) =
      outcomes (bufRP (oneShotSched bs)) n (mkBufParser bs) := by
  have h1 := outcomes_sim cycleSched cycleSched_pos n (mkBufParser bs) (mkParser bs)
    (mkBufParser_rel bs)
  have h2 := outcomes_sim (oneShotSched bs) (fun i => by simp [oneShotSched]) n
    (mkBufParser bs) (mkParser bs) (mkBufParser_rel bs)
  rw [h1, h2]

end Skew
